import Mathlib

/-!
Shallow embedding of the StarResonanceAutoMod module-combination optimizer
(`module_optimizer.py`) and module parser (`module_parser.py`).

Conventions of the embedding:
* Attribute names (Chinese strings in the source) are represented by `Nat`
  codes.  The fixed sets of the source are encoded as:
  1 = 力量加持, 2 = 敏捷加持, 3 = 攻速专注, 4 = 智力加持, 5 = 施法专注,
  6 = 特攻伤害, 7 = 精英打击, 8 = 抵御魔法, 9 = 抵御物理,
  10 = 特攻治疗加持, 11 = 专精治疗加持; any other code is some other
  attribute name.  The optimizer only ever compares names for equality and
  membership in these sets, so this renaming is faithful.
* Python `float` scores: every score `calculate_fitness` produces is an
  exact integer multiple of 0.1 (the only fractional constant is the `0.1`
  tie-breaker of line 83), so scores are embedded exactly as the `Int`
  number of TENTHS: `deci n` is the score `n.0`, and adding the raw total
  attribute value embeds `+ total * 0.1`.  All comparisons between scores
  are preserved by this positive scaling.  Likewise every probability is a
  multiple of 0.001 and is embedded as the `Nat` number of THOUSANDTHS:
  `random.random()` draws a thousandths value in `[0, 1000)`.
* Python `dict` accumulation (`attr_breakdown`) is embedded as an
  association list updated in insertion order, exactly mirroring
  `d[k] = d.get(k, 0) + v` (existing keys keep their position, new keys are
  appended).
* Randomness (`random.sample`, `random.random`, `random.randrange`,
  `random.choice`) is embedded by threading a stream `g : Nat → Nat`
  together with a cursor; `random.sample(l, k)` with `k > len(l)` raises
  `ValueError` in Python and is embedded as `Except.error .valueError`.
* `while` loops whose termination is data dependent take explicit fuel;
  running out of fuel is `Except.error .fuelExhausted` (the embedding of
  divergence, distinct from a Python exception).
-/

/-- One attribute entry of a module (`ModulePart` of `module_types.py`,
absent from `src/`; its shape — id, name, value — is taken from the spec's
data model `(attribute_id, attribute_name, value : non-negative integer)`
and from its uses in `module_optimizer.py` / `module_parser.py`). -/
structure ModulePart where
  id : Nat
  name : Nat
  value : Nat
deriving DecidableEq, Repr

instance : Inhabited ModulePart := ⟨⟨0, 0, 0⟩⟩

/-- A module (`ModuleInfo` of `module_types.py`, absent from `src/`; shape
from the spec's data model and its uses in the optimizer and parser). -/
structure ModuleInfo where
  name : Nat
  config_id : Nat
  uuid : Nat
  quality : Nat
  parts : List ModulePart
deriving DecidableEq, Repr

instance : Inhabited ModuleInfo := ⟨⟨0, 0, 0, 0, []⟩⟩

/-- `ModuleCategory` of `module_types.py` (absent from `src/`): the four
categories used by the optimizer. -/
inductive ModuleCategory where
  | ATTACK
  | GUARDIAN
  | SUPPORT
  | All
deriving DecidableEq, Repr

/-- `PHYSICAL_ATTRIBUTES = {"力量加持", "敏捷加持", "攻速专注"}`. -/
def PHYSICAL_ATTRIBUTES : List Nat := [1, 2, 3]

/-- `MAGIC_ATTRIBUTES = {"智力加持", "施法专注"}`. -/
def MAGIC_ATTRIBUTES : List Nat := [4, 5]

/-- `ATTACK_ATTRIBUTES = {"特攻伤害", "精英打击", "力量加持", "敏捷加持", "智力加持"}`. -/
def ATTACK_ATTRIBUTES : List Nat := [6, 7, 1, 2, 4]

/-- `GUARDIAN_ATTRIBUTES = {"抵御魔法", "抵御物理"}`. -/
def GUARDIAN_ATTRIBUTES : List Nat := [8, 9]

/-- `SUPPORT_ATTRIBUTES = {"特攻治疗加持", "专精治疗加持"}`. -/
def SUPPORT_ATTRIBUTES : List Nat := [10, 11]

/-- One step of Python's
`attr_breakdown[name] = attr_breakdown.get(name, 0) + value`:
an existing key is updated in place, a new key is appended at the end. -/
def addPart (b : List (Nat × Nat)) (name v : Nat) : List (Nat × Nat) :=
  match b with
  | [] => [(name, v)]
  | (k, w) :: rest => if k = name then (k, w + v) :: rest else (k, w) :: addPart rest name v

/-- The `attr_breakdown` dictionary built by both `calculate_fitness` and
`calculate_combat_power`: for every module, for every part, accumulate
`part.value` under `part.name`. -/
def attrBreakdown (modules : List ModuleInfo) : List (Nat × Nat) :=
  modules.foldl (fun b m => m.parts.foldl (fun b p => addPart b p.name p.value) b) []

/-- The mutually-exclusive tier bonus of `calculate_fitness`
(lines 66–69 of `module_optimizer.py`). -/
def tierBonus (v : Nat) : Nat :=
  if 20 ≤ v then 1000 + (v - 20) * 20
  else if 16 ≤ v then 500 + (v - 16) * 15
  else if 12 ≤ v then 100 + (v - 12) * 5
  else 0

/-- Python truthiness of the `prioritized_attrs` argument:
`None` and `[]` are falsy. -/
def truthy : Option (List Nat) → Bool
  | none => false
  | some l => !l.isEmpty

/-- First-appearance deduplication, the key order of a Python `dict`. -/
def firstDedup (l : List Nat) : List Nat :=
  l.foldl (fun acc a => if a ∈ acc then acc else acc ++ [a]) []

/-- A whole-number score, in tenths: `deci n` embeds the float `n.0`. -/
def deci (n : Nat) : Int := 10 * n

/-- Python's `max(0.0, score)` on a score in tenths. -/
def clampScore (score : Int) : Int := if score < 0 then 0 else score

/-- `calculate_fitness` (lines 47–84 of `module_optimizer.py`).  The
result is the score in tenths (see the file header); `score += x` for the
whole-number bonuses is `+ deci x`, and the final
`score += sum(attr_breakdown.values()) * 0.1` is `+ total`. -/
def calculate_fitness (modules : List ModuleInfo) (category : ModuleCategory)
    (prioritized_attrs : Option (List Nat)) : Int :=
  if modules.isEmpty ∨ (modules.map (·.uuid)).dedup.length < 4 then 0 else
    let b := attrBreakdown modules
    let keys := b.map Prod.fst
    let priorityScore : Int :=
      match prioritized_attrs with
      | none => 0
      | some pri =>
        if pri.isEmpty then 0
        else
          let match_count := ((firstDedup pri).filter (fun a => a ∈ keys)).length
          let mismatch_count := (keys.filter (fun a => a ∉ pri)).length
          deci (match_count * 100) - deci (mismatch_count * 50)
    let threshold_score : Nat := (b.map (fun e => tierBonus e.2)).sum
    let target_attrs : List Nat :=
      match category with
      | ModuleCategory.ATTACK => ATTACK_ATTRIBUTES
      | ModuleCategory.GUARDIAN => GUARDIAN_ATTRIBUTES
      | ModuleCategory.SUPPORT => SUPPORT_ATTRIBUTES
      | ModuleCategory.All => []
    let affinity : Nat := ((b.filter (fun e => e.1 ∈ target_attrs)).map (fun e => e.2 * 5)).sum
    let physical_sum : Nat := ((b.filter (fun e => e.1 ∈ PHYSICAL_ATTRIBUTES)).map (·.2)).sum
    let magic_sum : Nat := ((b.filter (fun e => e.1 ∈ MAGIC_ATTRIBUTES)).map (·.2)).sum
    let penalty : Nat :=
      if 0 < physical_sum ∧ 0 < magic_sum then (min physical_sum magic_sum) * 10 else 0
    let total : Nat := (b.map (·.2)).sum
    let score : Int :=
      priorityScore + deci threshold_score + deci affinity - deci penalty + (total : Int)
    clampScore score

/-- Modelled from the spec: the static configuration of `module_types.py`
(absent from `src/`): `ATTR_THRESHOLDS` (ascending breakpoints),
`BASIC_ATTR_POWER_MAP` / `SPECIAL_ATTR_POWER_MAP` (tier level → power,
`dict.get(level, 0)` embedded as a total function), `TOTAL_ATTR_POWER_MAP`
(total attribute value → bonus power, missing keys contribute zero), and
`ATTR_NAME_TYPE_MAP` (attribute name → "basic"/"special", embedded as a
predicate `attrTypeSpecial`). -/
structure PowerConfig where
  thresholds : List Nat
  basicPower : Nat → Nat
  specialPower : Nat → Nat
  totalPower : Nat → Nat
  attrTypeSpecial : Nat → Bool

/-- The per-attribute contribution of the loop at lines 254–259 of
`calculate_combat_power`: `max_level` counts the thresholds met, and a
positive level is looked up in the basic or special power map. -/
def cpContrib (cfg : PowerConfig) (a v : Nat) : Nat :=
  let max_level := (cfg.thresholds.filter (fun t => t ≤ v)).length
  if 0 < max_level then
    (if cfg.attrTypeSpecial a then cfg.specialPower max_level else cfg.basicPower max_level)
  else 0

/-- `ModuleOptimizer.calculate_combat_power` (lines 243–262 of
`module_optimizer.py`), parameterized by the static configuration. -/
def calculate_combat_power (cfg : PowerConfig) (modules : List ModuleInfo) :
    Nat × List (Nat × Nat) :=
  let b := attrBreakdown modules
  let total_attr_value := (b.map (·.2)).sum
  let threshold_power := (b.map (fun e => cpContrib cfg e.1 e.2)).sum
  (threshold_power + cfg.totalPower total_attr_value, b)

/-- Insert a module into a list sorted ascending by `uuid` (stable). -/
def insertByUuid (m : ModuleInfo) : List ModuleInfo → List ModuleInfo
  | [] => [m]
  | x :: xs => if m.uuid ≤ x.uuid then m :: x :: xs else x :: insertByUuid m xs

/-- Python's stable `list.sort(key=lambda m: m.uuid)`. -/
def sortByUuid (l : List ModuleInfo) : List ModuleInfo :=
  l.foldr insertByUuid []

/-- `ModuleSolution` dataclass (lines 30–42 of `module_optimizer.py`).
`score` is the combat power (an `int` in the source once assigned),
`optimization_score` the search-time fitness in tenths. -/
structure ModuleSolution where
  modules : List ModuleInfo
  attr_breakdown : List (Nat × Nat)
  score : Nat
  optimization_score : Int
deriving DecidableEq, Repr

instance : Inhabited ModuleSolution := ⟨⟨[], [], 0, 0⟩⟩

/-- Constructing a `ModuleSolution(modules=…)`: `__post_init__` sorts the
modules by `uuid`; the other fields take their dataclass defaults. -/
def mkSolution (mods : List ModuleInfo) : ModuleSolution :=
  { modules := sortByUuid mods, attr_breakdown := [], score := 0, optimization_score := 0 }

/-- `ModuleSolution.get_combination_id`: the tuple of member uuids (the
modules being kept sorted by uuid). -/
def combinationId (s : ModuleSolution) : List Nat :=
  s.modules.map (·.uuid)

/-- A pseudorandom stream: successive draws read successive positions. -/
def Sampler : Type := Nat → Nat

/-- Embedded abnormal outcomes: `valueError` is a Python exception
(`random.sample` with a sample size larger than the population,
an out-of-range list index); `fuelExhausted` embeds divergence of an
unbounded `while` loop. -/
inductive GaErr where
  | valueError
  | fuelExhausted
deriving DecidableEq, Repr

/-- Draw `k` elements without replacement, reading indices from the
stream.  Mirrors `random.sample`'s behavior of picking distinct positions
(the stream decides which). -/
def sampleAux {α : Type} (g : Sampler) : Nat → List α → Nat → List α × Nat
  | 0, _, c => ([], c)
  | _ + 1, [], c => ([], c)
  | k + 1, x :: xs, c =>
    let i := g c % (xs.length + 1)
    let e := (x :: xs).get ⟨i, Nat.mod_lt _ (Nat.succ_pos xs.length)⟩
    let r := sampleAux g k ((x :: xs).eraseIdx i) (c + 1)
    (e :: r.1, r.2)

/-- `random.sample(l, k)`: `ValueError` when `k > len(l)`. -/
def sample {α : Type} (g : Sampler) (l : List α) (k : Nat) (c : Nat) :
    Except GaErr (List α × Nat) :=
  if l.length < k then .error .valueError else .ok (sampleAux g k l c)

/-- `random.random()`: a draw in `[0, 1)`, in thousandths. -/
def randThousandths (g : Sampler) (c : Nat) : Nat × Nat :=
  (g c % 1000, c + 1)

/-- `random.randrange(n)` (callers guarantee `0 < n`). -/
def randIndex (g : Sampler) (c n : Nat) : Nat × Nat :=
  (g c % n, c + 1)

/-- `random.choice(l)` (callers guarantee `l ≠ []`). -/
def choice (g : Sampler) (l : List ModuleInfo) (c : Nat) : ModuleInfo × Nat :=
  (l.getD (g c % l.length) default, c + 1)

/-- The GA parameters dictionary of `ModuleOptimizer.__init__`; the
probability/rate entries are in thousandths. -/
structure GaParams where
  population_size : Nat
  generations : Nat
  mutation_rate : Nat
  crossover_rate : Nat
  elitism_rate : Nat
  tournament_size : Nat
  local_search_rate : Nat

/-- The concrete `ga_params` of `ModuleOptimizer.__init__`
(lines 195–199 of `module_optimizer.py`): population 100, 40 generations,
mutation 0.1, crossover 0.8, elitism 0.1, tournament 5, local search 0.3. -/
def gaParams : GaParams :=
  { population_size := 100, generations := 40, mutation_rate := 100,
    crossover_rate := 800, elitism_rate := 100, tournament_size := 5,
    local_search_rate := 300 }

/-- Python's `int(population_size * rate)` with the rate in thousandths
(for the source's values `int(100 * 0.1) = 10` and `int(100 * 0.3) = 30`,
both in IEEE double and here). -/
def intOfRate (n rate : Nat) : Nat := n * rate / 1000

/-- Stable insertion (descending by `f`) used to embed Python's stable
`sort(key=…, reverse=True)` / `sorted(…, reverse=True)`. -/
def insertDescBy {α β : Type} [LinearOrder β] (f : α → β) (s : α) : List α → List α
  | [] => [s]
  | x :: xs => if f x ≤ f s then s :: x :: xs else x :: insertDescBy f s xs

/-- Stable descending sort by key `f`. -/
def sortDescBy {α β : Type} [LinearOrder β] (f : α → β) (l : List α) : List α :=
  l.foldr (insertDescBy f) []

/-- The body loop of `_initialize_population`: keep sampling 4-module
combinations until the population reaches `target` (fuel bounded). -/
def initLoop (g : Sampler) (category : ModuleCategory) (pri : Option (List Nat))
    (pool : List ModuleInfo) (target : Nat) :
    Nat → List ModuleSolution → List (List Nat) → Nat →
    Except GaErr (List ModuleSolution × Nat)
  | 0, pop, _, c => if target ≤ pop.length then .ok (pop, c) else .error .fuelExhausted
  | fuel + 1, pop, seen, c =>
    if target ≤ pop.length then .ok (pop, c)
    else
      match sample g pool 4 c with
      | .error e => .error e
      | .ok (mods, c') =>
        let sol := mkSolution mods
        let cid := combinationId sol
        if cid ∈ seen then initLoop g category pri pool target fuel pop seen c'
        else
          let sol := { sol with
            optimization_score := calculate_fitness sol.modules category pri }
          initLoop g category pri pool target fuel (pop ++ [sol]) (cid :: seen) c'

/-- `_initialize_population` (lines 96–121 of `module_optimizer.py`);
`math.comb(len(pool), 4)` is `Nat.choose`. -/
def _initialize_population (g : Sampler) (category : ModuleCategory)
    (pri : Option (List Nat)) (pool : List ModuleInfo) (size : Nat)
    (fuel : Nat) (c : Nat) : Except GaErr (List ModuleSolution × Nat) :=
  if pool.length < 4 then .ok ([], c)
  else
    let target := min size (Nat.choose pool.length 4)
    if target = 0 then .ok ([], c)
    else initLoop g category pri pool target fuel [] [] c

/-- Python's `max(iterable, key=…)`: the first element with maximal key. -/
def maxByScore (l : List ModuleSolution) : ModuleSolution :=
  match l with
  | [] => default
  | x :: xs =>
    xs.foldl (fun best s =>
      if best.optimization_score < s.optimization_score then s else best) x

/-- `_selection` (lines 123–125): a tournament drawn by `random.sample`. -/
def _selection (g : Sampler) (p : GaParams) (population : List ModuleSolution)
    (c : Nat) : Except GaErr (ModuleSolution × Nat) :=
  match sample g population p.tournament_size c with
  | .error e => .error e
  | .ok (t, c') => .ok (maxByScore t, c')

/-- `_crossover` (lines 127–132). -/
def _crossover (g : Sampler) (p : GaParams) (p1 p2 : ModuleSolution) (c : Nat) :
    (ModuleSolution × ModuleSolution) × Nat :=
  let r := randThousandths g c
  if p.crossover_rate < r.1 then ((p1, p2), r.2)
  else
    let h1 := p1.modules.take 2
    let ids1 := h1.map (·.uuid)
    let child1_mods := h1 ++ (p2.modules.filter (fun m => m.uuid ∉ ids1)).take 2
    let h2 := p2.modules.take 2
    let ids2 := h2.map (·.uuid)
    let child2_mods := h2 ++ (p1.modules.filter (fun m => m.uuid ∉ ids2)).take 2
    ((if child1_mods.length = 4 then mkSolution child1_mods else p1,
      if child2_mods.length = 4 then mkSolution child2_mods else p2), r.2)

/-- `_mutate` (lines 134–141): replace one random slot by a random pool
module not already present, then re-sort by uuid. -/
def _mutate (g : Sampler) (p : GaParams) (sol : ModuleSolution)
    (pool : List ModuleInfo) (c : Nat) : ModuleSolution × Nat :=
  let r := randThousandths g c
  if p.mutation_rate < r.1 then (sol, r.2)
  else
    let current_ids := sol.modules.map (·.uuid)
    let candidates := pool.filter (fun m => m.uuid ∉ current_ids)
    if candidates.isEmpty then (sol, r.2)
    else
      let ri := randIndex g r.2 sol.modules.length
      let ch := choice g candidates ri.2
      ({ sol with modules := sortByUuid (sol.modules.set ri.1 ch.1) }, ch.2)

/-- One candidate step of the best-replacement scan of `_local_search`
(lines 151–157): skip a module whose uuid is already held by another slot,
otherwise evaluate it as the replacement for slot `i` and keep it if it
strictly beats the best score so far. -/
def lsStep (category : ModuleCategory) (pri : Option (List Nat))
    (sol : ModuleSolution) (i : Nat) (keepUuids : List Nat)
    (acc : Option ModuleInfo × Int) (nm : ModuleInfo) : Option ModuleInfo × Int :=
  if nm.uuid ∈ keepUuids then acc
  else
    let temp := sol.modules.take i ++ [nm] ++ sol.modules.drop (i + 1)
    let ns := calculate_fitness temp category pri
    if acc.2 < ns then (some nm, ns) else acc

/-- The inner scan of `_local_search` for one slot `i` (lines 148–162):
evaluate every pool module as a replacement and keep the single best
strictly improving one (first wins ties). -/
def lsSlotScan (category : ModuleCategory) (pri : Option (List Nat))
    (pool : List ModuleInfo) (sol : ModuleSolution) (i : Nat) :
    ModuleSolution × Bool :=
  let current := sol.modules.getD i default
  let keepUuids := (sol.modules.filter (fun m => m.uuid ≠ current.uuid)).map (·.uuid)
  let best := pool.foldl (lsStep category pri sol i keepUuids)
    (none, sol.optimization_score)
  match best with
  | (some nm, ns) =>
    ({ sol with modules := sortByUuid (sol.modules.set i nm), optimization_score := ns }, true)
  | (none, _) => (sol, false)

/-- One full pass of `_local_search` over the (four) slots, carrying the
`improved` flag. -/
def lsPass (category : ModuleCategory) (pri : Option (List Nat))
    (pool : List ModuleInfo) (sol : ModuleSolution) : ModuleSolution × Bool :=
  (List.range sol.modules.length).foldl
    (fun (acc : ModuleSolution × Bool) i =>
      let r := lsSlotScan category pri pool acc.1 i
      (r.1, acc.2 || r.2))
    (sol, false)

/-- `_local_search` (lines 143–164): best-improvement passes until a full
pass yields no improvement (fuel bounded). -/
def _local_search (category : ModuleCategory) (pri : Option (List Nat))
    (pool : List ModuleInfo) : Nat → ModuleSolution → Except GaErr ModuleSolution
  | 0, _ => .error .fuelExhausted
  | fuel + 1, sol =>
    let r := lsPass category pri pool sol
    if r.2 then _local_search category pri pool fuel r.1 else .ok r.1

/-- The `while len(next_gen) < population_size` loop of
`run_single_ga_campaign` (lines 172–176): two selections, crossover,
mutation of both children, append both (fuel bounded). -/
def fillNextGen (g : Sampler) (p : GaParams) (category : ModuleCategory)
    (pri : Option (List Nat)) (pool : List ModuleInfo)
    (population : List ModuleSolution) :
    Nat → List ModuleSolution → Nat → Except GaErr (List ModuleSolution × Nat)
  | 0, next_gen, c =>
    if p.population_size ≤ next_gen.length then .ok (next_gen, c)
    else .error .fuelExhausted
  | fuel + 1, next_gen, c =>
    if p.population_size ≤ next_gen.length then .ok (next_gen, c)
    else
      match _selection g p population c with
      | .error e => .error e
      | .ok (p1, c) =>
        match _selection g p population c with
        | .error e => .error e
        | .ok (p2, c) =>
          let cr := _crossover g p p1 p2 c
          let m1 := _mutate g p cr.1.1 pool cr.2
          let m2 := _mutate g p cr.1.2 pool m1.2
          fillNextGen g p category pri pool population fuel
            (next_gen ++ [m1.1, m2.1]) m2.2

/-- The `for i in range(local_search_count)` loop (lines 180–182): replace
each of the first `k` members by its local-search refinement.  Python
raises `IndexError` if `k` exceeds the list length. -/
def lsTop (category : ModuleCategory) (pri : Option (List Nat))
    (pool : List ModuleInfo) (fuel : Nat) :
    Nat → List ModuleSolution → Except GaErr (List ModuleSolution)
  | 0, l => .ok l
  | _ + 1, [] => .error .valueError
  | k + 1, x :: xs => do
    let x' ← _local_search category pri pool fuel x
    let xs' ← lsTop category pri pool fuel k xs
    .ok (x' :: xs')

/-- One generation of `run_single_ga_campaign` (lines 169–183). -/
def runGeneration (g : Sampler) (p : GaParams) (category : ModuleCategory)
    (pri : Option (List Nat)) (pool : List ModuleInfo) (fuel : Nat)
    (population : List ModuleSolution) (c : Nat) :
    Except GaErr (List ModuleSolution × Nat) := do
  let population := sortDescBy (·.optimization_score) population
  let elite_count := intOfRate p.population_size p.elitism_rate
  let next_gen := population.take elite_count
  let (next_gen, c) ← fillNextGen g p category pri pool population fuel next_gen c
  let next_gen := next_gen.map (fun s =>
    { s with optimization_score := calculate_fitness s.modules category pri })
  let next_gen := sortDescBy (·.optimization_score) next_gen
  let local_search_count := intOfRate p.population_size p.local_search_rate
  let next_gen ← lsTop category pri pool fuel local_search_count next_gen
  .ok (next_gen, c)

/-- The `for _ in range(generations)` loop of `run_single_ga_campaign`. -/
def genLoop (g : Sampler) (p : GaParams) (category : ModuleCategory)
    (pri : Option (List Nat)) (pool : List ModuleInfo) (fuel : Nat) :
    Nat → List ModuleSolution → Nat → Except GaErr (List ModuleSolution × Nat)
  | 0, population, c => .ok (population, c)
  | gens + 1, population, c => do
    let (population, c) ← runGeneration g p category pri pool fuel population c
    genLoop g p category pri pool fuel gens population c

/-- `run_single_ga_campaign` (lines 86–184 of `module_optimizer.py`). -/
def run_single_ga_campaign (g : Sampler) (modules : List ModuleInfo)
    (category : ModuleCategory) (pri : Option (List Nat)) (p : GaParams)
    (fuel : Nat) : Except GaErr (List ModuleSolution) := do
  let (population, c) ← _initialize_population g category pri modules p.population_size fuel 0
  if population.isEmpty then .ok []
  else do
    let (population, _) ← genLoop g p category pri modules fuel p.generations population c
    .ok (sortDescBy (·.optimization_score) population)

/-- `ModuleOptimizer.get_module_category`:
`MODULE_CATEGORY_MAP.get(config_id, ATTACK)` with the static map (absent
from `src/`) embedded as a total function `catMap`. -/
def get_module_category (catMap : Nat → ModuleCategory) (m : ModuleInfo) :
    ModuleCategory :=
  catMap m.config_id

/-- Append-if-absent, the embedding of `set.update` on module objects
(iteration order of the resulting Python `set` is unspecified; the
embedding fixes first-insertion order). -/
def insertUnique (l : List ModuleInfo) (m : ModuleInfo) : List ModuleInfo :=
  if m ∈ l then l else l ++ [m]

/-- `ModuleOptimizer.prefilter_modules` (lines 227–240): per-attribute top
30 plus top 50 by total value, united without duplicates. -/
def prefilter_modules (modules : List ModuleInfo) : List ModuleInfo :=
  if modules.isEmpty then []
  else
    let attrNames := firstDedup ((modules.map (fun m => m.parts.map (·.name))).flatten)
    let perAttr := attrNames.foldl (fun acc a =>
      let module_values := (modules.map (fun m =>
        (m.parts.filter (fun p => p.name = a)).map (fun p => (m, p.value)))).flatten
      let sorted_by_attr := sortDescBy (fun mv => mv.2) module_values
      (sorted_by_attr.take 30).foldl (fun acc mv => insertUnique acc mv.1) acc) []
    let sorted_by_total_value :=
      sortDescBy (fun m => ((m.parts.map (·.value)).sum : Nat)) modules
    (sorted_by_total_value.take 50).foldl insertUnique perAttr

/-- The distinct attribute names occurring in a pool
(`{p.name for m in module_pool for p in m.parts}`). -/
def availableAttrs (module_pool : List ModuleInfo) : List Nat :=
  firstDedup ((module_pool.map (fun m => m.parts.map (·.name))).flatten)

/-- `ModuleOptimizer._preliminary_check` (lines 265–276): with a truthy
priority list, the distinct attribute names of the pool must intersect the
priority set in at least two elements. -/
def _preliminary_check (module_pool : List ModuleInfo)
    (pri : Option (List Nat)) : Bool :=
  match pri with
  | none => true
  | some l =>
    if l.isEmpty then true
    else 2 ≤ ((availableAttrs module_pool).filter (fun a => a ∈ l)).length

/-- The tier index used by `_get_attribute_level_key` (lines 278–290) and
`print_solution_details`: 6,5,4,3,2,1,0 for values ≥20,≥16,≥12,≥8,≥4,≥1,0. -/
def attrLevel (v : Nat) : Nat :=
  if 20 ≤ v then 6
  else if 16 ≤ v then 5
  else if 12 ≤ v then 4
  else if 8 ≤ v then 3
  else if 4 ≤ v then 2
  else if 1 ≤ v then 1
  else 0

/-- Stable ascending insertion by the first component. -/
def insertAscByKey (e : Nat × Nat) : List (Nat × Nat) → List (Nat × Nat)
  | [] => [e]
  | x :: xs => if e.1 ≤ x.1 then e :: x :: xs else x :: insertAscByKey e xs

/-- Python's `sorted(attr_breakdown.items())` (keys are distinct, so the
sort is by key). -/
def sortPairsAsc (l : List (Nat × Nat)) : List (Nat × Nat) :=
  l.foldr insertAscByKey []

/-- `_get_attribute_level_key`: the breakdown sorted by attribute name,
each value bucketed into its tier label. -/
def _get_attribute_level_key (b : List (Nat × Nat)) : List (Nat × Nat) :=
  (sortPairsAsc b).map (fun e => (e.1, attrLevel e.2))

/-- Update-or-append on an association list keyed by combination id: the
embedding of dict-comprehension insertion (later values overwrite, key
order is first-appearance). -/
def upsertCombo (l : List (List Nat × ModuleSolution)) (k : List Nat)
    (v : ModuleSolution) : List (List Nat × ModuleSolution) :=
  match l with
  | [] => [(k, v)]
  | (k', v') :: rest =>
    if k' = k then (k', v) :: rest else (k', v') :: upsertCombo rest k v

/-- `{sol.get_combination_id(): sol for sol in all_best_solutions}.values()`
(line 339): one solution per combination id, keys in first-appearance
order, later solutions overwriting earlier ones. -/
def dedupByCombo (l : List ModuleSolution) : List ModuleSolution :=
  (l.foldl (fun acc s => upsertCombo acc (combinationId s) s) []).map (·.2)

/-- The inner `for new_module in module_pool` scan of
`_local_search_improvement` (lines 380–390) for one slot `i`: the FIRST
strictly improving replacement is adopted. -/
def lsiScanPool (category : ModuleCategory) (pri : Option (List Nat))
    (sol : ModuleSolution) (i : Nat) :
    List ModuleInfo → Option ModuleSolution
  | [] => none
  | nm :: rest =>
    if nm.uuid ∈ sol.modules.map (·.uuid) then lsiScanPool category pri sol i rest
    else
      let temp := sol.modules.take i ++ [nm] ++ sol.modules.drop (i + 1)
      let ns := calculate_fitness temp category pri
      if sol.optimization_score < ns then
        some { sol with modules := sortByUuid temp, optimization_score := ns }
      else lsiScanPool category pri sol i rest

/-- The `for i in range(len(modules))` scan of `_local_search_improvement`:
slots in order, stopping at the first improving swap. -/
def lsiScanSlots (category : ModuleCategory) (pri : Option (List Nat))
    (pool : List ModuleInfo) (sol : ModuleSolution) :
    List Nat → Option ModuleSolution
  | [] => none
  | i :: rest =>
    match lsiScanPool category pri sol i pool with
    | some s => some s
    | none => lsiScanSlots category pri pool sol rest

/-- The `while True` loop of `_local_search_improvement`: repeat the scan
from the start after every adopted swap, until no swap improves. -/
def lsiLoop (category : ModuleCategory) (pri : Option (List Nat))
    (pool : List ModuleInfo) : Nat → ModuleSolution → Except GaErr ModuleSolution
  | 0, _ => .error .fuelExhausted
  | fuel + 1, sol =>
    match lsiScanSlots category pri pool sol (List.range sol.modules.length) with
    | none => .ok sol
    | some s => lsiLoop category pri pool fuel s

/-- `ModuleOptimizer._local_search_improvement` (lines 375–393): recompute
the fitness, then first-improvement passes until no swap improves. -/
def _local_search_improvement (sol : ModuleSolution) (module_pool : List ModuleInfo)
    (category : ModuleCategory) (pri : Option (List Nat)) (fuel : Nat) :
    Except GaErr ModuleSolution :=
  lsiLoop category pri module_pool fuel
    { sol with optimization_score := calculate_fitness sol.modules category pri }

/-- The `ProcessPoolExecutor` phase of `optimize_modules` (lines 320–335):
campaign `k` runs with its own private stream `g k`; a campaign that
raises is discarded (`except Exception` around `future.result()`), its
results otherwise appended.  Divergence (`fuelExhausted`) is not a Python
exception and propagates. -/
def collectCampaigns (g : Nat → Sampler) (pool : List ModuleInfo)
    (category : ModuleCategory) (pri : Option (List Nat)) (fuel : Nat) :
    Nat → Except GaErr (List ModuleSolution)
  | 0 => .ok []
  | n + 1 => do
    let prev ← collectCampaigns g pool category pri fuel n
    match run_single_ga_campaign (g n) pool category pri gaParams fuel with
    | .ok r => .ok (prev ++ r)
    | .error .valueError => .ok prev
    | .error .fuelExhausted => .error .fuelExhausted

/-- Append-if-key-absent for the attribute-level deduplication
(`if attr_level_key not in solutions_by_attr_level`, lines 361–365):
the FIRST solution with a given tier profile is kept. -/
def dedupByLevelKey (l : List ModuleSolution) : List ModuleSolution :=
  (l.foldl (fun (acc : List (List (Nat × Nat) × ModuleSolution)) s =>
      let k := _get_attribute_level_key s.attr_breakdown
      if acc.any (fun e => e.1 = k) then acc else acc ++ [(k, s)]) []).map (·.2)

/-- The quality split of `optimize_modules` (lines 312–318): total part
value ≥ 12 (the `quality_threshold`) is high quality; with fewer than 4
high-quality modules the whole candidate pool is used and the low-quality
pool is emptied. -/
def qualitySplit (candidate_modules : List ModuleInfo) :
    List ModuleInfo × List ModuleInfo :=
  let hq := candidate_modules.filter (fun m => 12 ≤ (m.parts.map (·.value)).sum)
  let lq := candidate_modules.filter (fun m => (m.parts.map (·.value)).sum < 12)
  if hq.length < 4 then (candidate_modules, []) else (hq, lq)

/-- The refinement phase of `optimize_modules` (lines 342–352): skipped
entirely when the low-quality pool is empty, otherwise the top 30 unique
solutions are refined by `_local_search_improvement` against the entire
candidate pool. -/
def refinePhase (lq : List ModuleInfo) (unique_solutions : List ModuleSolution)
    (candidate_modules : List ModuleInfo) (category : ModuleCategory)
    (pri : Option (List Nat)) (fuel : Nat) : Except GaErr (List ModuleSolution) :=
  if lq.isEmpty then .ok unique_solutions
  else (unique_solutions.take 30).mapM
    (fun s => _local_search_improvement s candidate_modules category pri fuel)

/-- The category filter and strict priority filter at the head of
`optimize_modules` (lines 297–304): keep the requested category (`All`
keeps everything), then — with a truthy priority list — drop any module
having a part whose name is outside the priority set. -/
def strict_filtered_pool (catMap : Nat → ModuleCategory)
    (modules : List ModuleInfo) (category : ModuleCategory)
    (prioritized_attrs : Option (List Nat)) : List ModuleInfo :=
  let module_pool := if category = ModuleCategory.All then modules
    else modules.filter (fun m => get_module_category catMap m = category)
  if truthy prioritized_attrs then
    module_pool.filter (fun m =>
      m.parts.all (fun p => p.name ∈ prioritized_attrs.getD []))
  else module_pool

/-- `ModuleOptimizer.optimize_modules` (lines 292–373), parameterized by
the per-campaign random streams `g`, the campaign count (`os.cpu_count()-1`
floored at 1 in the source), the static category map and power tables, and
loop fuel. -/
def optimize_modules (g : Nat → Sampler) (num_campaigns : Nat)
    (catMap : Nat → ModuleCategory) (pcfg : PowerConfig)
    (modules : List ModuleInfo) (category : ModuleCategory) (top_n : Nat)
    (prioritized_attrs : Option (List Nat)) (fuel : Nat) :
    Except GaErr (List ModuleSolution) := do
  let module_pool := strict_filtered_pool catMap modules category prioritized_attrs
  if !_preliminary_check module_pool prioritized_attrs then .ok [] else
  let candidate_modules := prefilter_modules module_pool
  if candidate_modules.length < 4 then .ok [] else do
  let split := qualitySplit candidate_modules
  let all_best_solutions ←
    collectCampaigns g split.1 category prioritized_attrs fuel num_campaigns
  let unique_solutions := dedupByCombo all_best_solutions
  let unique_solutions := sortDescBy (·.optimization_score) unique_solutions
  let refined_solutions ←
    refinePhase split.2 unique_solutions candidate_modules category prioritized_attrs fuel
  let final_results := unique_solutions ++ refined_solutions
  let final_results := final_results.map (fun s =>
    if s.attr_breakdown.isEmpty then
      let cp := calculate_combat_power pcfg s.modules
      { s with score := cp.1, attr_breakdown := cp.2 }
    else s)
  let final_results := sortDescBy (·.optimization_score) final_results
  let deduplicated_solutions := dedupByLevelKey final_results
  let deduplicated_solutions := sortDescBy (·.score) deduplicated_solutions
  .ok (deduplicated_solutions.take top_n)

/-- One entry of a module package in the decoded game state, as read by
`ModuleParser.parse_module_info` (lines 40–67 of `module_parser.py`):
`item.HasField('ModNewAttr')`, `item.ModNewAttr.ModParts`, `ConfigId`,
`Uuid`, `Quality`, and the `InitLinkNums` of the matching `ModInfos`
entry. -/
structure PackItem where
  hasModNewAttr : Bool
  modParts : List Nat
  configId : Nat
  uuid : Nat
  quality : Nat
  initLinkNums : List Nat
deriving DecidableEq, Repr

/-- The part-building loop of `parse_module_info` (lines 58–67):
`for i, part_id in enumerate(mod_parts): if i < len(init_link_nums): …` —
declared parts and attribute values are consumed in lockstep, the excess
of either list dropped.  `MODULE_ATTR_NAMES.get` (a static map absent from
`src/`) is embedded as the total function `attrNames`. -/
def parse_parts (attrNames : Nat → Nat) : List Nat → List Nat → List ModulePart
  | [], _ => []
  | _ :: _, [] => []
  | pid :: ps, v :: vs =>
    { id := pid, name := attrNames pid, value := v } :: parse_parts attrNames ps vs

/-- The item loop of `parse_module_info` over one package: an item with a
`ModNewAttr` field and a nonempty part list is parsed and appended; the
first other item stops the loop (`else: break`).  `MODULE_NAMES.get` is
embedded as the total function `moduleNames`. -/
def parse_module_info (moduleNames attrNames : Nat → Nat) :
    List PackItem → List ModuleInfo
  | [] => []
  | it :: rest =>
    if it.hasModNewAttr ∧ ¬it.modParts.isEmpty then
      { name := moduleNames it.configId, config_id := it.configId, uuid := it.uuid,
        quality := it.quality,
        parts := parse_parts attrNames it.modParts it.initLinkNums }
        :: parse_module_info moduleNames attrNames rest
    else []

/-- The `match_count` of `calculate_fitness` (line 60 of
`module_optimizer.py`): the number of distinct prioritized attributes that
also occur in the breakdown of the module set. -/
def matchCount (modules : List ModuleInfo) (pri : List Nat) : Nat :=
  ((firstDedup pri).filter
    (fun a => a ∈ (attrBreakdown modules).map Prod.fst)).length

/-- Modelled from the spec: the refinement pass as the spec describes it —
"best-improvement local search: for each slot, evaluate every pool module
as a replacement and adopt the single best improving swap, looping until a
full pass yields no improvement" — which is exactly the campaign-internal
`_local_search`, started (as the refinement pass is, line 377) from a
freshly recomputed fitness. -/
def bestImprovementRefine (sol : ModuleSolution) (module_pool : List ModuleInfo)
    (category : ModuleCategory) (pri : Option (List Nat)) (fuel : Nat) :
    Except GaErr ModuleSolution :=
  _local_search category pri module_pool fuel
    { sol with optimization_score := calculate_fitness sol.modules category pri }

/-- A module with given uuid and `(name, value)` parts, for concrete
instances. -/
def mkMod (u : Nat) (ps : List (Nat × Nat)) : ModuleInfo :=
  { name := u, config_id := u, uuid := u,
    quality := 1, parts := ps.map (fun p => { id := p.1, name := p.1, value := p.2 }) }

/-- Lookup in a breakdown association list (the semantics of Python dict
indexing; dict equality is lookup equality). -/
def bdLookup (b : List (Nat × Nat)) (a : Nat) : Option Nat :=
  match b with
  | [] => none
  | (k, v) :: rest => if k = a then some v else bdLookup rest a

/-- The sum of the values of all parts named `a` across a module list:
the value the breakdown dictionary associates to `a`. -/
def partsSum (a : Nat) (ms : List ModuleInfo) : Nat :=
  ((((ms.map (·.parts)).flatten).filter (fun p => p.name = a)).map (·.value)).sum

/-- Well-formedness of a solution during the campaign phase: exactly 4
modules, pairwise distinct uuids, all drawn from `pool`, and the
breakdown still at its dataclass default. -/
def SolWf (pool : List ModuleInfo) (s : ModuleSolution) : Prop :=
  s.modules.length = 4 ∧ (s.modules.map (·.uuid)).Nodup ∧
    (∀ m ∈ s.modules, m ∈ pool) ∧ s.attr_breakdown = []

/-- Monotonicity of the spec-modelled power tables: the spec's threshold
tables assign weakly increasing power to increasing tier levels. -/
def MonoPowerConfig (cfg : PowerConfig) : Prop :=
  Monotone cfg.basicPower ∧ Monotone cfg.specialPower

/-- `ms` with the value of part `j` of module `i` increased by `d`
(all other data unchanged). -/
def bumpPart (ms : List ModuleInfo) (i j d : Nat) : List ModuleInfo :=
  let m := ms.getD i default
  let p := m.parts.getD j default
  ms.set i { m with parts := m.parts.set j { p with value := p.value + d } }

/-- Concrete modules for the priority-mismatch instance: four modules,
uuids 1–4, each a single part of attribute 100 with value 5. -/
def c1mods : List ModuleInfo :=
  [mkMod 1 [(100, 5)], mkMod 2 [(100, 5)], mkMod 3 [(100, 5)], mkMod 4 [(100, 5)]]

/-- A pool of exactly 4 feasible modules (distinct uuids, each of total
part value 12, so all are high quality). -/
def pool4 : List ModuleInfo :=
  [mkMod 1 [(100, 12)], mkMod 2 [(101, 12)], mkMod 3 [(102, 12)], mkMod 4 [(103, 12)]]

/-- A solution for the local-search comparison: four modules each with
physical attribute 1 (力量加持) at value 6. -/
def solC3 : ModuleSolution :=
  mkSolution [mkMod 1 [(1, 6)], mkMod 2 [(1, 6)], mkMod 3 [(1, 6)], mkMod 4 [(1, 6)]]

/-- The pool for the local-search comparison: a slightly better physical
module first, a large magic module (attribute 4, 智力加持) second. -/
def poolC3 : List ModuleInfo := [mkMod 5 [(1, 7)], mkMod 6 [(4, 30)]]

/-- A pool of 5 modules, each of total value 12 (all high quality) and
each carrying one attribute of value 0 (names 201–205). -/
def pool8 : List ModuleInfo :=
  [mkMod 1 [(101, 12), (201, 0)], mkMod 2 [(102, 12), (202, 0)],
   mkMod 3 [(103, 12), (203, 0)], mkMod 4 [(104, 12), (204, 0)],
   mkMod 5 [(105, 12), (205, 0)]]

/-- A hand-crafted random stream: the first five 4-element draws from a
5-element pool produce the five distinct 4-subsets, after which every
draw reads 0. -/
def gTab : Sampler := fun c => [1, 1, 1, 1, 0, 1, 1, 1, 0, 0, 1, 1, 0, 0, 0, 1].getD c 0

/-- A concrete power configuration for witnesses: the spec's example
thresholds 1,4,8,12,16,20 and linear power tables. -/
def pcfgDemo : PowerConfig :=
  { thresholds := [1, 4, 8, 12, 16, 20], basicPower := fun l => l * 10,
    specialPower := fun l => l * 20, totalPower := fun _ => 0,
    attrTypeSpecial := fun _ => false }

/-- A concrete category map for witnesses (every config id is ATTACK,
the source's `MODULE_CATEGORY_MAP.get` default). -/
def catMapDemo : Nat → ModuleCategory := fun _ => ModuleCategory.ATTACK

/-- An upper bound (in tenths) for the fitness of any 4-module list drawn
from `pool8` (8 parts of total value 48: `deci (1000*8 + 20*48) + 48`). -/
def fitnessBound8 : Int := 89648

/-- The fuel used for the concrete `pool8` run: strictly more than
`fitnessBound8` steps, so every local-search loop provably terminates. -/
def FUEL : Nat := 100000

/-- All parts of a module list, in order. -/
def allParts (ms : List ModuleInfo) : List ModulePart :=
  (ms.map (·.parts)).flatten

/-- The breakdown fold over a flat part list (the loops of
`calculate_fitness` and `calculate_combat_power` with the two nested
`for`s flattened). -/
def bdFold (b : List (Nat × Nat)) (ps : List ModulePart) : List (Nat × Nat) :=
  ps.foldl (fun b p => addPart b p.name p.value) b

/-- The total value carried under attribute `a` by a flat part list. -/
def partsVal (a : Nat) (ps : List ModulePart) : Nat :=
  ((ps.filter (fun p => p.name = a)).map (·.value)).sum

/-- The value/cursor pair `_selection` produces when the tournament sample
succeeds. -/
def selPick (g : Sampler) (p : GaParams) (population : List ModuleSolution)
    (c : Nat) : ModuleSolution × Nat :=
  (maxByScore (sampleAux g p.tournament_size population c).1,
    (sampleAux g p.tournament_size population c).2)

/-- One successful iteration of the `while len(next_gen) < population_size`
loop: two tournament selections, crossover, two mutations; returns the two
children and the advanced cursor. -/
def fillStep (g : Sampler) (p : GaParams) (pool : List ModuleInfo)
    (population : List ModuleSolution) (c : Nat) :
    (ModuleSolution × ModuleSolution) × Nat :=
  let s1 := selPick g p population c
  let s2 := selPick g p population s1.2
  let cr := _crossover g p s1.1 s2.1 s2.2
  let m1 := _mutate g p cr.1.1 pool cr.2
  let m2 := _mutate g p cr.1.2 pool m1.2
  ((m1.1, m2.1), m2.2)

theorem insertByUuid_perm (m : ModuleInfo) (l : List ModuleInfo) :
    (insertByUuid m l).Perm (m :: l) := by
  induction l with
  | nil => simp [insertByUuid]
  | cons x xs ih =>
    simp only [insertByUuid]
    split
    · exact List.Perm.refl _
    · exact (ih.cons x).trans (List.Perm.swap m x xs)

theorem sortByUuid_perm (l : List ModuleInfo) : (sortByUuid l).Perm l := by
  induction l with
  | nil => simp [sortByUuid]
  | cons x xs ih =>
    exact (insertByUuid_perm x (sortByUuid xs)).trans (ih.cons x)

theorem sortByUuid_length (l : List ModuleInfo) : (sortByUuid l).length = l.length :=
  (sortByUuid_perm l).length_eq

theorem sortByUuid_mem {l : List ModuleInfo} {m : ModuleInfo} :
    m ∈ sortByUuid l ↔ m ∈ l :=
  (sortByUuid_perm l).mem_iff

theorem sortByUuid_uuid_nodup {l : List ModuleInfo}
    (h : (l.map (·.uuid)).Nodup) : ((sortByUuid l).map (·.uuid)).Nodup :=
  (((sortByUuid_perm l).map (·.uuid)).nodup_iff).mpr h

theorem insertDescBy_perm {α β : Type} [LinearOrder β] (f : α → β) (s : α)
    (l : List α) : (insertDescBy f s l).Perm (s :: l) := by
  induction l with
  | nil => simp [insertDescBy]
  | cons x xs ih =>
    simp only [insertDescBy]
    split
    · exact List.Perm.refl _
    · exact (ih.cons x).trans (List.Perm.swap s x xs)

theorem sortDescBy_perm {α β : Type} [LinearOrder β] (f : α → β) (l : List α) :
    (sortDescBy f l).Perm l := by
  induction l with
  | nil => simp [sortDescBy]
  | cons x xs ih =>
    exact (insertDescBy_perm f x (sortDescBy f xs)).trans (ih.cons x)

theorem sortDescBy_mem {α β : Type} [LinearOrder β] {f : α → β} {l : List α}
    {x : α} : x ∈ sortDescBy f l ↔ x ∈ l :=
  (sortDescBy_perm f l).mem_iff

theorem sortDescBy_length {α β : Type} [LinearOrder β] (f : α → β) (l : List α) :
    (sortDescBy f l).length = l.length :=
  (sortDescBy_perm f l).length_eq

theorem perm_getElem_cons_eraseIdx {α : Type} :
    ∀ (l : List α) (i : Nat) (h : i < l.length),
      l.Perm (l.get ⟨i, h⟩ :: l.eraseIdx i)
  | x :: xs, 0, _ => by simp
  | x :: xs, i + 1, h => by
    have h' : i < xs.length := by simpa using h
    have ih := perm_getElem_cons_eraseIdx xs i h'
    have step1 : (x :: xs).Perm (x :: xs.get ⟨i, h'⟩ :: xs.eraseIdx i) := ih.cons x
    have step2 : (x :: xs.get ⟨i, h'⟩ :: xs.eraseIdx i).Perm
        (xs.get ⟨i, h'⟩ :: x :: xs.eraseIdx i) := List.Perm.swap _ _ _
    exact step1.trans step2

theorem sampleAux_length {α : Type} (g : Sampler) :
    ∀ (k : Nat) (l : List α) (c : Nat),
      (sampleAux g k l c).1.length = min k l.length
  | 0, _, _ => by simp [sampleAux]
  | k + 1, [], c => by simp [sampleAux]
  | k + 1, x :: xs, c => by
    simp only [sampleAux]
    have ih := sampleAux_length g k ((x :: xs).eraseIdx (g c % (xs.length + 1))) (c + 1)
    simp only [List.length_cons, ih]
    have hi : g c % (xs.length + 1) < (x :: xs).length := by
      simpa using Nat.mod_lt _ (Nat.succ_pos xs.length)
    have hlen := List.length_eraseIdx_add_one (l := x :: xs)
      (i := g c % (xs.length + 1)) hi
    simp only [List.length_cons] at hlen
    omega

theorem sampleAux_append_perm {α : Type} (g : Sampler) :
    ∀ (k : Nat) (l : List α) (c : Nat),
      ∃ rest, ((sampleAux g k l c).1 ++ rest).Perm l
  | 0, l, c => ⟨l, by simp [sampleAux]⟩
  | k + 1, [], c => ⟨[], by simp [sampleAux]⟩
  | k + 1, x :: xs, c => by
    simp only [sampleAux]
    obtain ⟨rest, hrest⟩ :=
      sampleAux_append_perm g k ((x :: xs).eraseIdx (g c % (xs.length + 1))) (c + 1)
    refine ⟨rest, ?_⟩
    have hi : g c % (xs.length + 1) < (x :: xs).length := by
      simpa using Nat.mod_lt _ (Nat.succ_pos xs.length)
    have hperm := perm_getElem_cons_eraseIdx (x :: xs) (g c % (xs.length + 1)) hi
    exact List.Perm.trans (hrest.cons _) hperm.symm

theorem sampleAux_mem {α : Type} {g : Sampler} {k : Nat} {l : List α} {c : Nat}
    {x : α} (h : x ∈ (sampleAux g k l c).1) : x ∈ l := by
  obtain ⟨rest, hrest⟩ := sampleAux_append_perm g k l c
  exact hrest.mem_iff.mp (List.mem_append_left rest h)

theorem sampleAux_uuid_nodup {g : Sampler} {k : Nat} {l : List ModuleInfo}
    {c : Nat} (h : (l.map (·.uuid)).Nodup) :
    (((sampleAux g k l c).1.map (·.uuid)).Nodup) := by
  obtain ⟨rest, hrest⟩ := sampleAux_append_perm g k l c
  have hall : (((sampleAux g k l c).1 ++ rest).map (·.uuid)).Nodup :=
    ((hrest.map (·.uuid)).nodup_iff).mpr h
  simp only [List.map_append] at hall
  exact hall.of_append_left

theorem map_filter_comm {α β : Type} (f : α → β) (p : β → Bool) (l : List α) :
    (l.filter (fun x => p (f x))).map f = (l.map f).filter p := by
  induction l with
  | nil => simp
  | cons x xs ih =>
    by_cases h : p (f x) <;> simp [List.filter_cons, h, ih]

theorem nodup_set_of_not_mem_eraseIdx :
    ∀ (l : List Nat) (i : Nat) (a : Nat), l.Nodup → i < l.length →
      a ∉ l.eraseIdx i → (l.set i a).Nodup
  | [], i, a, _, h, _ => by simp at h
  | x :: xs, 0, a, hnd, _, hmem => by
    simp only [List.eraseIdx_cons_zero] at hmem
    simp only [List.set_cons_zero, List.nodup_cons]
    exact ⟨hmem, hnd.of_cons⟩
  | x :: xs, i + 1, a, hnd, hlen, hmem => by
    simp only [List.eraseIdx_cons_succ, List.mem_cons, not_or] at hmem
    simp only [List.set_cons_succ, List.nodup_cons]
    simp only [List.nodup_cons] at hnd
    have hlen' : i < xs.length := by simpa using hlen
    constructor
    · intro hx
      rcases List.mem_or_eq_of_mem_set hx with h | h
      · exact hnd.1 h
      · exact hmem.1 h.symm
    · exact nodup_set_of_not_mem_eraseIdx xs i a hnd.2 hlen' hmem.2

theorem nodup_set_of_not_mem (l : List Nat) (i : Nat) (a : Nat)
    (hnd : l.Nodup) (hlen : i < l.length) (hmem : a ∉ l) : (l.set i a).Nodup :=
  nodup_set_of_not_mem_eraseIdx l i a hnd hlen
    (fun h => hmem (List.mem_of_mem_eraseIdx h))

theorem filter_ne_getElem_eq_eraseIdx :
    ∀ (l : List Nat) (i : Nat) (h : i < l.length), l.Nodup →
      l.filter (fun x => x ≠ l[i]) = l.eraseIdx i
  | x :: xs, 0, _, hnd => by
    simp only [List.nodup_cons] at hnd
    simp only [List.getElem_cons_zero, List.eraseIdx_cons_zero, List.filter_cons]
    have hcond : (decide (x ≠ x)) = false := by simp
    rw [hcond]
    simp only [Bool.false_eq_true, if_false]
    apply List.filter_eq_self.mpr
    intro b hb
    simp only [ne_eq, decide_eq_true_eq]
    exact fun hbx => hnd.1 (hbx ▸ hb)
  | x :: xs, i + 1, h, hnd => by
    simp only [List.nodup_cons] at hnd
    have h' : i < xs.length := by simpa using h
    have hx : x ≠ xs[i] := fun hcontra => hnd.1 (hcontra ▸ List.getElem_mem h')
    simp only [List.getElem_cons_succ, List.eraseIdx_cons_succ, List.filter_cons]
    have hcond : (decide (x ≠ xs[i])) = true := by simpa using hx
    rw [hcond]
    simp only [if_true]
    rw [filter_ne_getElem_eq_eraseIdx xs i h' hnd.2]

theorem solWf_withScore {pool : List ModuleInfo} {s : ModuleSolution}
    (h : SolWf pool s) (x : Int) :
    SolWf pool { s with optimization_score := x } := h

theorem mkSolution_wf {pool : List ModuleInfo} {mods : List ModuleInfo}
    (hlen : mods.length = 4) (hnd : (mods.map (·.uuid)).Nodup)
    (hmem : ∀ m ∈ mods, m ∈ pool) : SolWf pool (mkSolution mods) := by
  refine ⟨?_, ?_, ?_, rfl⟩
  · simpa [mkSolution, sortByUuid_length] using hlen
  · simpa [mkSolution] using sortByUuid_uuid_nodup hnd
  · intro m hm
    simp only [mkSolution] at hm
    exact hmem m (sortByUuid_mem.mp hm)

theorem foldl_max_mem : ∀ (xs : List ModuleSolution) (x : ModuleSolution),
    xs.foldl (fun best s =>
      if best.optimization_score < s.optimization_score then s else best) x ∈ x :: xs
  | [], x => by simp
  | y :: ys, x => by
    simp only [List.foldl_cons]
    by_cases hc : x.optimization_score < y.optimization_score
    · simp only [if_pos hc]
      exact List.mem_cons_of_mem _ (foldl_max_mem ys y)
    · simp only [if_neg hc]
      rcases List.mem_cons.mp (foldl_max_mem ys x) with h | h
      · exact List.mem_cons.mpr (Or.inl h)
      · exact List.mem_cons_of_mem _ (List.mem_cons_of_mem _ h)

theorem maxByScore_mem : ∀ {l : List ModuleSolution}, l ≠ [] → maxByScore l ∈ l
  | [], h => absurd rfl h
  | x :: xs, _ => foldl_max_mem xs x

theorem selection_mem {g : Sampler} {p : GaParams} {population : List ModuleSolution}
    {c : Nat} {s : ModuleSolution} {c' : Nat}
    (hts : 0 < p.tournament_size)
    (hok : _selection g p population c = .ok (s, c')) : s ∈ population := by
  unfold _selection sample at hok
  by_cases hlen : population.length < p.tournament_size
  · rw [if_pos hlen] at hok
    exact absurd hok (by simp)
  · rw [if_neg hlen] at hok
    have ht : (sampleAux g p.tournament_size population c).1 ≠ [] := by
      have hl := sampleAux_length g p.tournament_size population c
      intro hemp
      rw [hemp] at hl
      simp only [List.length_nil] at hl
      have hmin : min p.tournament_size population.length = p.tournament_size :=
        Nat.min_eq_left (Nat.le_of_not_lt hlen)
      omega
    have hmem := maxByScore_mem ht
    simp only [Except.ok.injEq, Prod.mk.injEq] at hok
    rcases hok with ⟨hs, _⟩
    exact hs ▸ sampleAux_mem hmem

theorem crossover_mix_wf {pool : List ModuleInfo} {pa pb : ModuleSolution}
    (ha : SolWf pool pa) (hb : SolWf pool pb)
    (hlen : (pa.modules.take 2 ++ (pb.modules.filter
      (fun m => m.uuid ∉ (pa.modules.take 2).map (·.uuid))).take 2).length = 4) :
    SolWf pool (mkSolution (pa.modules.take 2 ++ (pb.modules.filter
      (fun m => m.uuid ∉ (pa.modules.take 2).map (·.uuid))).take 2)) := by
  apply mkSolution_wf hlen
  · rw [List.map_append]
    apply List.Nodup.append
    · exact ((List.take_sublist 2 _).map _).nodup ha.2.1
    · exact ((List.take_sublist 2 _).map _).nodup
        (((List.filter_sublist _).map _).nodup hb.2.1)
    · intro u hu hu'
      rcases List.mem_map.mp hu' with ⟨m, hm, hmu⟩
      have hmf := List.mem_of_mem_take hm
      rcases List.mem_filter.mp hmf with ⟨_, hpred⟩
      simp only [decide_not, Bool.not_eq_eq_eq_not, Bool.not_true,
        decide_eq_false_iff_not] at hpred
      exact hpred (hmu ▸ hu)
  · intro m hm
    rcases List.mem_append.mp hm with h | h
    · exact ha.2.2.1 m (List.mem_of_mem_take h)
    · exact hb.2.2.1 m (List.mem_of_mem_filter (List.mem_of_mem_take h))

theorem crossover_children_wf {pool : List ModuleInfo} {g : Sampler} {p : GaParams}
    {p1 p2 : ModuleSolution} {c : Nat}
    (h1 : SolWf pool p1) (h2 : SolWf pool p2) :
    SolWf pool (_crossover g p p1 p2 c).1.1 ∧ SolWf pool (_crossover g p p1 p2 c).1.2 := by
  simp only [_crossover]
  split
  · exact ⟨h1, h2⟩
  · refine ⟨?_, ?_⟩ <;> dsimp only
    · split
      · exact crossover_mix_wf h1 h2 (by assumption)
      · exact h1
    · split
      · exact crossover_mix_wf h2 h1 (by assumption)
      · exact h2

theorem mutate_wf {pool : List ModuleInfo} {g : Sampler} {p : GaParams}
    {sol : ModuleSolution} {c : Nat} (h : SolWf pool sol) :
    SolWf pool (_mutate g p sol pool c).1 := by
  simp only [_mutate]
  split
  · exact h
  · split
    · exact h
    · dsimp only [choice, randIndex]
      rename_i hne
      have hcand : ¬(pool.filter
          (fun m => m.uuid ∉ sol.modules.map (·.uuid))).isEmpty = true := hne
      set candidates := pool.filter (fun m => m.uuid ∉ sol.modules.map (·.uuid)) with hcdef
      have hclen : 0 < candidates.length := by
        cases hc : candidates with
        | nil => rw [hc] at hcand; simp at hcand
        | cons a l => simp [hc]
      have hidx : g ((randThousandths g c).2) % candidates.length < candidates.length :=
        Nat.mod_lt _ hclen
      have hch : candidates.getD (g ((randThousandths g c).2 + 1) % candidates.length)
          default ∈ candidates := by
        rw [List.getD_eq_getElem _ _ (Nat.mod_lt _ hclen)]
        exact List.getElem_mem _
      rcases List.mem_filter.mp hch with ⟨hchpool, hchpred⟩
      simp only [decide_not, Bool.not_eq_eq_eq_not, Bool.not_true,
        decide_eq_false_iff_not] at hchpred
      have hslen : 0 < sol.modules.length := by rw [h.1]; omega
      have hsi : g ((randThousandths g c).2) % sol.modules.length < sol.modules.length :=
        Nat.mod_lt _ hslen
      refine ⟨?_, ?_, ?_, h.2.2.2⟩
      · rw [sortByUuid_length, List.length_set, h.1]
      · apply sortByUuid_uuid_nodup
        rw [List.map_set]
        exact nodup_set_of_not_mem _ _ _ h.2.1 (by rw [List.length_map]; exact hsi) hchpred
      · intro m hm
        have hm' := sortByUuid_mem.mp hm
        rcases List.mem_or_eq_of_mem_set hm' with h' | h'
        · exact h.2.2.1 m h'
        · exact h' ▸ hchpool

/-- Invariant carried through the best-replacement fold of `lsSlotScan`. -/
def SlotAcc (category : ModuleCategory) (pri : Option (List Nat))
    (pool : List ModuleInfo) (sol : ModuleSolution) (i : Nat) (keep : List Nat)
    (acc : Option ModuleInfo × Int) : Prop :=
  (acc.1 = none ∧ acc.2 = sol.optimization_score) ∨
    (∃ nm, acc.1 = some nm ∧ nm ∈ pool ∧ nm.uuid ∉ keep ∧
      acc.2 = calculate_fitness
        (sol.modules.take i ++ [nm] ++ sol.modules.drop (i + 1)) category pri ∧
      sol.optimization_score < acc.2)

theorem lsSlot_fold_spec (category : ModuleCategory) (pri : Option (List Nat))
    (pool : List ModuleInfo) (sol : ModuleSolution) (i : Nat) (keep : List Nat) :
    ∀ (l : List ModuleInfo) (acc : Option ModuleInfo × Int),
      (∀ m ∈ l, m ∈ pool) →
      SlotAcc category pri pool sol i keep acc →
      SlotAcc category pri pool sol i keep
        (l.foldl (lsStep category pri sol i keep) acc)
  | [], acc, _, hacc => hacc
  | nm :: l, acc, hsub, hacc => by
    simp only [List.foldl_cons]
    apply lsSlot_fold_spec category pri pool sol i keep l
    · exact fun m hm => hsub m (List.mem_cons_of_mem nm hm)
    · unfold lsStep
      by_cases hk : nm.uuid ∈ keep
      · simpa [hk] using hacc
      · simp only [if_neg hk]
        split
        · rename_i himp
          right
          refine ⟨nm, rfl, hsub nm (List.mem_cons_self nm l), hk, ?_, ?_⟩
          · dsimp only
          · rcases hacc with ⟨_, h2⟩ | ⟨nm', _, _, _, _, hlt⟩
            · exact h2 ▸ himp
            · exact lt_trans hlt himp
        · exact hacc

theorem lsSlotScan_spec (category : ModuleCategory) (pri : Option (List Nat))
    {pool : List ModuleInfo} {sol : ModuleSolution} {i : Nat}
    (h : SolWf pool sol) (hi : i < sol.modules.length) :
    SolWf pool (lsSlotScan category pri pool sol i).1 ∧
    ((lsSlotScan category pri pool sol i).2 = false →
      (lsSlotScan category pri pool sol i).1 = sol) ∧
    ((lsSlotScan category pri pool sol i).2 = true →
      sol.optimization_score < (lsSlotScan category pri pool sol i).1.optimization_score ∧
      ∃ ms, (lsSlotScan category pri pool sol i).1.optimization_score =
          calculate_fitness ms category pri ∧ ms.length = sol.modules.length ∧
          ∀ m ∈ ms, m ∈ pool ∨ m ∈ sol.modules) := by
  have hfold := lsSlot_fold_spec category pri pool sol i
    ((sol.modules.filter (fun m => m.uuid ≠ (sol.modules.getD i default).uuid)).map (·.uuid))
    pool (none, sol.optimization_score) (fun m hm => hm) (Or.inl ⟨rfl, rfl⟩)
  unfold lsSlotScan
  dsimp only
  generalize hbest : pool.foldl (lsStep category pri sol i
      ((sol.modules.filter
        (fun m => m.uuid ≠ (sol.modules.getD i default).uuid)).map (·.uuid)))
    (none, sol.optimization_score) = best at hfold ⊢
  obtain ⟨optnm, ns⟩ := best
  cases optnm with
  | none =>
    refine ⟨h, fun _ => rfl, fun hcontra => by simp at hcontra⟩
  | some nm =>
    rcases hfold with ⟨hnone, _⟩ | ⟨nm', hsome, hpool, hkeep, hfit, hlt⟩
    · simp at hnone
    · simp only [Option.some.injEq] at hsome
      subst hsome
      have hkeep' : nm.uuid ∉ ((sol.modules.map (·.uuid)).eraseIdx i) := by
        have hmf := map_filter_comm (fun m : ModuleInfo => m.uuid)
          (fun u => decide (u ≠ (sol.modules.getD i default).uuid)) sol.modules
        have hgd : sol.modules.getD i default = sol.modules[i] :=
          List.getD_eq_getElem _ _ hi
        have hilen : i < (sol.modules.map (·.uuid)).length := by
          rw [List.length_map]
          exact hi
        have hui : (sol.modules.map (·.uuid))[i] = sol.modules[i].uuid := by
          simp
        have hfe := filter_ne_getElem_eq_eraseIdx (sol.modules.map (·.uuid)) i
          (by rw [List.length_map]; exact hi) h.2.1
        intro hmem
        apply hkeep
        rw [hmf, hgd]
        rw [hui] at hfe
        rw [hfe]
        exact hmem
      refine ⟨⟨?_, ?_, ?_, h.2.2.2⟩, fun hcontra => by simp at hcontra, fun _ => ?_⟩
      · rw [sortByUuid_length, List.length_set, h.1]
      · apply sortByUuid_uuid_nodup
        rw [List.map_set]
        exact nodup_set_of_not_mem_eraseIdx _ _ _ h.2.1
          (by rw [List.length_map]; exact hi) hkeep'
      · intro m hm
        have hm' := sortByUuid_mem.mp hm
        rcases List.mem_or_eq_of_mem_set hm' with h' | h'
        · exact h.2.2.1 m h'
        · exact h' ▸ hpool
      · refine ⟨hlt, ⟨sol.modules.take i ++ [nm] ++ sol.modules.drop (i + 1),
          hfit, ?_, ?_⟩⟩
        · simp only [List.length_append, List.length_take, List.length_drop,
            List.length_cons, List.length_nil]
          omega
        · intro m hm
          rcases List.mem_append.mp hm with hm1 | hm1
          · rcases List.mem_append.mp hm1 with hm2 | hm2
            · exact Or.inr (List.mem_of_mem_take hm2)
            · simp only [List.mem_singleton] at hm2
              exact Or.inl (hm2 ▸ hpool)
          · exact Or.inr (List.mem_of_mem_drop hm1)

/-- Invariant carried through the slot loop of `_local_search`. -/
def PassAcc (category : ModuleCategory) (pri : Option (List Nat))
    (pool : List ModuleInfo) (sol0 : ModuleSolution)
    (acc : ModuleSolution × Bool) : Prop :=
  SolWf pool acc.1 ∧
    (acc.2 = false → acc.1 = sol0) ∧
    (acc.2 = true →
      sol0.optimization_score < acc.1.optimization_score ∧
      ∃ ms, acc.1.optimization_score = calculate_fitness ms category pri ∧
        ms.length = 4 ∧ ∀ m ∈ ms, m ∈ pool)

theorem lsPass_fold_spec (category : ModuleCategory) (pri : Option (List Nat))
    {pool : List ModuleInfo} (sol0 : ModuleSolution) :
    ∀ (is : List Nat) (acc : ModuleSolution × Bool),
      (∀ i ∈ is, i < 4) →
      PassAcc category pri pool sol0 acc →
      PassAcc category pri pool sol0
        (is.foldl (fun (acc : ModuleSolution × Bool) i =>
          let r := lsSlotScan category pri pool acc.1 i
          (r.1, acc.2 || r.2)) acc)
  | [], acc, _, hacc => hacc
  | i :: is, acc, hbound, hacc => by
    simp only [List.foldl_cons]
    apply lsPass_fold_spec category pri sol0 is
    · exact fun j hj => hbound j (List.mem_cons_of_mem i hj)
    · have hi : i < acc.1.modules.length := by
        rw [hacc.1.1]
        exact hbound i (List.mem_cons_self i is)
      obtain ⟨hwf, hfalse, htrue⟩ := lsSlotScan_spec category pri hacc.1 hi
      refine ⟨hwf, ?_, ?_⟩
      · intro hff
        simp only [Bool.or_eq_false_iff] at hff
        rw [hfalse hff.2]
        exact hacc.2.1 hff.1
      · intro htt
        simp only [Bool.or_eq_true] at htt
        by_cases hs : (lsSlotScan category pri pool acc.1 i).2 = true
        · obtain ⟨hlt, ms, hms, hlen, hmem⟩ := htrue hs
          constructor
          · rcases Bool.eq_false_or_eq_true acc.2 with h2 | h2
            · exact lt_trans ((hacc.2.2 h2).1) hlt
            · rw [← hacc.2.1 h2]
              exact hlt
          · refine ⟨ms, hms, hlen.trans hacc.1.1, ?_⟩
            intro m hm
            rcases hmem m hm with h' | h'
            · exact h'
            · exact hacc.1.2.2.1 m h'
        · have hs' : (lsSlotScan category pri pool acc.1 i).2 = false := by
            rcases Bool.eq_false_or_eq_true (lsSlotScan category pri pool acc.1 i).2
              with h' | h'
            · exact absurd h' hs
            · exact h'
          rw [hfalse hs']
          rcases htt with ha | hb
          · exact hacc.2.2 ha
          · exact absurd hb hs

theorem lsPass_spec (category : ModuleCategory) (pri : Option (List Nat))
    {pool : List ModuleInfo} {sol : ModuleSolution} (h : SolWf pool sol) :
    PassAcc category pri pool sol (lsPass category pri pool sol) := by
  unfold lsPass
  apply lsPass_fold_spec category pri sol
  · intro i hi
    rw [List.mem_range] at hi
    rw [h.1] at hi
    exact hi
  · exact ⟨h, fun _ => rfl, fun hcontra => by simp at hcontra⟩

theorem local_search_wf (category : ModuleCategory) (pri : Option (List Nat))
    {pool : List ModuleInfo} :
    ∀ (fuel : Nat) {sol r : ModuleSolution}, SolWf pool sol →
      _local_search category pri pool fuel sol = .ok r → SolWf pool r
  | 0, sol, r, h, hok => by simp [_local_search] at hok
  | fuel + 1, sol, r, h, hok => by
    unfold _local_search at hok
    obtain ⟨hwf, _, _⟩ := lsPass_spec category pri h
    by_cases h2 : (lsPass category pri pool sol).2 = true
    · rw [if_pos h2] at hok
      exact local_search_wf category pri fuel hwf hok
    · rw [if_neg h2] at hok
      simp only [Except.ok.injEq] at hok
      exact hok ▸ hwf

theorem local_search_ok (category : ModuleCategory) (pri : Option (List Nat))
    {pool : List ModuleInfo} (B : Int)
    (hB : ∀ ms : List ModuleInfo, ms.length = 4 → (∀ m ∈ ms, m ∈ pool) →
      calculate_fitness ms category pri ≤ B) :
    ∀ (fuel : Nat) (sol : ModuleSolution), SolWf pool sol →
      sol.optimization_score ≤ B →
      (B - sol.optimization_score).toNat < fuel →
      ∃ r, _local_search category pri pool fuel sol = .ok r ∧ SolWf pool r
  | 0, sol, _, _, hfuel => by omega
  | fuel + 1, sol, hwf, hle, hfuel => by
    unfold _local_search
    obtain ⟨hwf', hfalse, htrue⟩ := lsPass_spec category pri hwf
    by_cases h2 : (lsPass category pri pool sol).2 = true
    · rw [if_pos h2]
      obtain ⟨hlt, ms, hms, hlen, hmem⟩ := htrue h2
      have hle' : (lsPass category pri pool sol).1.optimization_score ≤ B := by
        rw [hms]
        exact hB ms hlen hmem
      exact local_search_ok category pri B hB fuel _ hwf' hle' (by omega)
    · rw [if_neg h2]
      exact ⟨_, rfl, hwf'⟩

theorem initLoop_wf {g : Sampler} {category : ModuleCategory}
    {pri : Option (List Nat)} {pool : List ModuleInfo} {target : Nat}
    (hpool : (pool.map (·.uuid)).Nodup) (hlen : 4 ≤ pool.length) :
    ∀ (fuel : Nat) (pop : List ModuleSolution) (seen : List (List Nat)) (c : Nat)
      (res : List ModuleSolution × Nat),
      (∀ s ∈ pop, SolWf pool s) →
      initLoop g category pri pool target fuel pop seen c = .ok res →
      ∀ s ∈ res.1, SolWf pool s
  | 0, pop, seen, c, res, hpop, hok => by
    unfold initLoop at hok
    split at hok
    · simp only [Except.ok.injEq] at hok
      exact hok ▸ hpop
    · exact absurd hok (by simp)
  | fuel + 1, pop, seen, c, res, hpop, hok => by
    unfold initLoop at hok
    split at hok
    · simp only [Except.ok.injEq] at hok
      exact hok ▸ hpop
    · rw [sample, if_neg (Nat.not_lt.mpr hlen)] at hok
      simp only at hok
      have hmods : SolWf pool (mkSolution (sampleAux g 4 pool c).1) := by
        apply mkSolution_wf
        · have := sampleAux_length g 4 pool c
          rw [this]
          exact Nat.min_eq_left hlen
        · exact sampleAux_uuid_nodup hpool
        · exact fun m hm => sampleAux_mem hm
      split at hok
      · exact initLoop_wf hpool hlen fuel pop seen _ res hpop hok
      · apply initLoop_wf hpool hlen fuel _ _ _ res _ hok
        intro s hs
        rcases List.mem_append.mp hs with h' | h'
        · exact hpop s h'
        · simp only [List.mem_singleton] at h'
          exact h' ▸ solWf_withScore hmods _

theorem except_bind_ok {ε α β : Type} (a : α) (f : α → Except ε β) :
    (Except.ok a >>= f) = f a := rfl

theorem except_bind_err {ε α β : Type} (e : ε) (f : α → Except ε β) :
    ((Except.error e : Except ε α) >>= f) = Except.error e := rfl

theorem except_bind_ok_iff {ε α β : Type} {x : Except ε α} {f : α → Except ε β}
    {b : β} : (x >>= f) = .ok b ↔ ∃ a, x = .ok a ∧ f a = .ok b := by
  cases x with
  | error e =>
    rw [except_bind_err]
    simp
  | ok a =>
    rw [except_bind_ok]
    simp

theorem _initialize_population_wf {g : Sampler} {category : ModuleCategory}
    {pri : Option (List Nat)} {pool : List ModuleInfo} {size fuel c : Nat}
    {res : List ModuleSolution × Nat}
    (hpool : (pool.map (·.uuid)).Nodup)
    (hok : _initialize_population g category pri pool size fuel c = .ok res) :
    ∀ s ∈ res.1, SolWf pool s := by
  unfold _initialize_population at hok
  split at hok
  · simp only [Except.ok.injEq] at hok
    rw [← hok]
    intro s hs
    simp at hs
  · rename_i hlen
    dsimp only at hok
    split at hok
    · simp only [Except.ok.injEq] at hok
      rw [← hok]
      intro s hs
      simp at hs
    · exact initLoop_wf hpool (Nat.le_of_not_lt hlen) fuel [] [] c res
        (fun s hs => by simp at hs) hok

theorem fillNextGen_wf {g : Sampler} {p : GaParams} {category : ModuleCategory}
    {pri : Option (List Nat)} {pool : List ModuleInfo}
    {population : List ModuleSolution}
    (hts : 0 < p.tournament_size)
    (hpopwf : ∀ s ∈ population, SolWf pool s) :
    ∀ (fuel : Nat) (next_gen : List ModuleSolution) (c : Nat)
      (res : List ModuleSolution × Nat),
      (∀ s ∈ next_gen, SolWf pool s) →
      fillNextGen g p category pri pool population fuel next_gen c = .ok res →
      ∀ s ∈ res.1, SolWf pool s
  | 0, next_gen, c, res, hng, hok => by
    unfold fillNextGen at hok
    split at hok
    · simp only [Except.ok.injEq] at hok
      exact hok ▸ hng
    · exact absurd hok (by simp)
  | fuel + 1, next_gen, c, res, hng, hok => by
    unfold fillNextGen at hok
    split at hok
    · simp only [Except.ok.injEq] at hok
      exact hok ▸ hng
    · split at hok
      · exact absurd hok (by simp)
      · rename_i p1v c1v hsel1
        split at hok
        · exact absurd hok (by simp)
        · rename_i p2v c2v hsel2
          have h1 : SolWf pool p1v :=
            hpopwf _ (selection_mem hts hsel1)
          have h2 : SolWf pool p2v :=
            hpopwf _ (selection_mem hts hsel2)
          obtain ⟨hc1, hc2⟩ := crossover_children_wf (g := g) (p := p)
            (c := c2v) h1 h2
          apply fillNextGen_wf hts hpopwf fuel _ _ res _ hok
          intro s hs
          rcases List.mem_append.mp hs with h' | h'
          · exact hng s h'
          · rcases List.mem_cons.mp h' with h'' | h''
            · exact h'' ▸ mutate_wf hc1
            · simp only [List.mem_singleton] at h''
              exact h'' ▸ mutate_wf hc2

theorem lsTop_wf (category : ModuleCategory) (pri : Option (List Nat))
    {pool : List ModuleInfo} (fuel : Nat) :
    ∀ (k : Nat) (l res : List ModuleSolution),
      (∀ s ∈ l, SolWf pool s) →
      lsTop category pri pool fuel k l = .ok res →
      ∀ s ∈ res, SolWf pool s
  | 0, l, res, hl, hok => by
    unfold lsTop at hok
    simp only [Except.ok.injEq] at hok
    exact hok ▸ hl
  | k + 1, [], res, hl, hok => by
    unfold lsTop at hok
    exact absurd hok (by simp)
  | k + 1, x :: xs, res, hl, hok => by
    unfold lsTop at hok
    rw [except_bind_ok_iff] at hok
    obtain ⟨x', hx', hok⟩ := hok
    rw [except_bind_ok_iff] at hok
    obtain ⟨xs', hxs', hok⟩ := hok
    simp only [Except.ok.injEq, pure] at hok
    have hxwf : SolWf pool x' :=
      local_search_wf category pri fuel (hl x (List.mem_cons_self x xs)) hx'
    have hxswf : ∀ s ∈ xs', SolWf pool s :=
      lsTop_wf category pri fuel k xs xs'
        (fun s hs => hl s (List.mem_cons_of_mem x hs)) hxs'
    rw [← hok]
    intro s hs
    rcases List.mem_cons.mp hs with h' | h'
    · exact h' ▸ hxwf
    · exact hxswf s h'

theorem runGeneration_wf {g : Sampler} {p : GaParams} {category : ModuleCategory}
    {pri : Option (List Nat)} {pool : List ModuleInfo} {fuel : Nat}
    {population : List ModuleSolution} {c : Nat}
    {res : List ModuleSolution × Nat}
    (hts : 0 < p.tournament_size)
    (hpop : ∀ s ∈ population, SolWf pool s)
    (hok : runGeneration g p category pri pool fuel population c = .ok res) :
    ∀ s ∈ res.1, SolWf pool s := by
  unfold runGeneration at hok
  rw [except_bind_ok_iff] at hok
  obtain ⟨ngc, hfill, hok⟩ := hok
  rw [except_bind_ok_iff] at hok
  obtain ⟨ng2, hlst, hok⟩ := hok
  simp only [Except.ok.injEq, pure] at hok
  have hsorted : ∀ s ∈ sortDescBy (·.optimization_score) population, SolWf pool s :=
    fun s hs => hpop s (sortDescBy_mem.mp hs)
  have htake : ∀ s ∈ (sortDescBy (·.optimization_score) population).take
      (intOfRate p.population_size p.elitism_rate), SolWf pool s :=
    fun s hs => hsorted s (List.mem_of_mem_take hs)
  have hfillwf := fillNextGen_wf hts hsorted fuel _ c ngc htake hfill
  have hrescore : ∀ s ∈ ngc.1.map (fun s =>
      { s with optimization_score := calculate_fitness s.modules category pri }),
      SolWf pool s := by
    intro s hs
    rcases List.mem_map.mp hs with ⟨s0, hs0, hseq⟩
    exact hseq ▸ solWf_withScore (hfillwf s0 hs0) _
  have hsort2 : ∀ s ∈ sortDescBy (·.optimization_score)
      (ngc.1.map (fun s =>
        { s with optimization_score := calculate_fitness s.modules category pri })),
      SolWf pool s :=
    fun s hs => hrescore s (sortDescBy_mem.mp hs)
  have := lsTop_wf category pri fuel _ _ ng2 hsort2 hlst
  rw [← hok]
  exact this

theorem genLoop_wf {g : Sampler} {p : GaParams} {category : ModuleCategory}
    {pri : Option (List Nat)} {pool : List ModuleInfo} {fuel : Nat}
    (hts : 0 < p.tournament_size) :
    ∀ (gens : Nat) (population : List ModuleSolution) (c : Nat)
      (res : List ModuleSolution × Nat),
      (∀ s ∈ population, SolWf pool s) →
      genLoop g p category pri pool fuel gens population c = .ok res →
      ∀ s ∈ res.1, SolWf pool s
  | 0, population, c, res, hpop, hok => by
    unfold genLoop at hok
    simp only [Except.ok.injEq] at hok
    exact hok ▸ hpop
  | gens + 1, population, c, res, hpop, hok => by
    unfold genLoop at hok
    rw [except_bind_ok_iff] at hok
    obtain ⟨pc, hgen, hok⟩ := hok
    exact genLoop_wf hts gens pc.1 pc.2 res
      (runGeneration_wf hts hpop (by
        rcases pc with ⟨a, b⟩
        exact hgen)) hok

theorem run_single_ga_campaign_wf {g : Sampler} {p : GaParams}
    {category : ModuleCategory} {pri : Option (List Nat)}
    {modules : List ModuleInfo} {fuel : Nat} {res : List ModuleSolution}
    (hts : 0 < p.tournament_size)
    (hpool : (modules.map (·.uuid)).Nodup)
    (hok : run_single_ga_campaign g modules category pri p fuel = .ok res) :
    ∀ s ∈ res, SolWf modules s := by
  unfold run_single_ga_campaign at hok
  rw [except_bind_ok_iff] at hok
  obtain ⟨pc, hinit, hok⟩ := hok
  obtain ⟨popl, cc⟩ := pc
  dsimp only at hok
  have hinitwf : ∀ s ∈ popl, SolWf modules s :=
    _initialize_population_wf hpool hinit
  split at hok
  · simp only [Except.ok.injEq] at hok
    rw [← hok]
    intro s hs
    simp at hs
  · rw [except_bind_ok_iff] at hok
    obtain ⟨pc2, hgen, hok⟩ := hok
    simp only [Except.ok.injEq, pure] at hok
    have := genLoop_wf hts p.generations popl cc pc2 hinitwf (by
      rcases pc2 with ⟨a, b⟩
      exact hgen)
    rw [← hok]
    intro s hs
    exact this s (sortDescBy_mem.mp hs)

theorem collectCampaigns_wf {g : Nat → Sampler} {pool : List ModuleInfo}
    {category : ModuleCategory} {pri : Option (List Nat)} {fuel : Nat}
    (hpool : (pool.map (·.uuid)).Nodup) :
    ∀ (n : Nat) (res : List ModuleSolution),
      collectCampaigns g pool category pri fuel n = .ok res →
      ∀ s ∈ res, SolWf pool s
  | 0, res, hok => by
    unfold collectCampaigns at hok
    simp only [Except.ok.injEq] at hok
    intro s hs
    rw [← hok] at hs
    simp at hs
  | n + 1, res, hok => by
    unfold collectCampaigns at hok
    rw [except_bind_ok_iff] at hok
    obtain ⟨prev, hprev, hok⟩ := hok
    have hprevwf := collectCampaigns_wf hpool n prev hprev
    split at hok
    · rename_i r hr
      simp only [Except.ok.injEq] at hok
      rw [← hok]
      intro s hs
      rcases List.mem_append.mp hs with h' | h'
      · exact hprevwf s h'
      · exact run_single_ga_campaign_wf (by decide) hpool hr s h'
    · simp only [Except.ok.injEq] at hok
      exact hok ▸ hprevwf
    · exact absurd hok (by simp)

theorem upsertCombo_values {acc : List (List Nat × ModuleSolution)}
    {k : List Nat} {v : ModuleSolution} :
    ∀ v' ∈ (upsertCombo acc k v).map (·.2), v' ∈ acc.map (·.2) ∨ v' = v := by
  induction acc with
  | nil =>
    intro v' hv'
    simp [upsertCombo] at hv'
    exact Or.inr hv'
  | cons e rest ih =>
    intro v' hv'
    obtain ⟨k', w⟩ := e
    simp only [upsertCombo] at hv'
    split at hv'
    · simp only [List.map_cons, List.mem_cons] at hv'
      rcases hv' with h | h
      · exact Or.inr h
      · exact Or.inl (by simp [h])
    · simp only [List.map_cons, List.mem_cons] at hv'
      rcases hv' with h | h
      · exact Or.inl (by simp [h])
      · rcases ih v' h with h' | h'
        · exact Or.inl (List.mem_cons_of_mem _ h')
        · exact Or.inr h'

theorem dedupByCombo_mem {l : List ModuleSolution} :
    ∀ s ∈ dedupByCombo l, s ∈ l := by
  unfold dedupByCombo
  suffices h : ∀ (l : List ModuleSolution) (acc : List (List Nat × ModuleSolution)),
      ∀ s ∈ (l.foldl (fun acc s => upsertCombo acc (combinationId s) s) acc).map (·.2),
        s ∈ acc.map (·.2) ∨ s ∈ l by
    intro s hs
    rcases h l [] s hs with h' | h'
    · simp at h'
    · exact h'
  intro l
  induction l with
  | nil => intro acc s hs; exact Or.inl hs
  | cons x xs ih =>
    intro acc s hs
    simp only [List.foldl_cons] at hs
    rcases ih (upsertCombo acc (combinationId x) x) s hs with h' | h'
    · rcases upsertCombo_values s h' with h'' | h''
      · exact Or.inl h''
      · exact Or.inr (h'' ▸ List.mem_cons_self x xs)
    · exact Or.inr (List.mem_cons_of_mem x h')

theorem dedupByLevelKey_mem {l : List ModuleSolution} :
    ∀ s ∈ dedupByLevelKey l, s ∈ l := by
  unfold dedupByLevelKey
  suffices h : ∀ (l : List ModuleSolution)
      (acc : List (List (Nat × Nat) × ModuleSolution)),
      ∀ s ∈ (l.foldl (fun acc s =>
          let k := _get_attribute_level_key s.attr_breakdown
          if acc.any (fun e => e.1 = k) then acc else acc ++ [(k, s)]) acc).map (·.2),
        s ∈ acc.map (·.2) ∨ s ∈ l by
    intro s hs
    rcases h l [] s hs with h' | h'
    · simp at h'
    · exact h'
  intro l
  induction l with
  | nil => intro acc s hs; exact Or.inl hs
  | cons x xs ih =>
    intro acc s hs
    simp only [List.foldl_cons] at hs
    rcases ih _ s hs with h' | h'
    · by_cases hc : acc.any (fun e =>
          e.1 = _get_attribute_level_key x.attr_breakdown) = true
      · rw [if_pos hc] at h'
        exact Or.inl h'
      · rw [if_neg hc] at h'
        simp only [List.map_append, List.mem_append] at h'
        rcases h' with h'' | h''
        · exact Or.inl h''
        · simp only [List.map_cons, List.map_nil, List.mem_singleton] at h''
          exact Or.inr (h'' ▸ List.mem_cons_self x xs)
    · exact Or.inr (List.mem_cons_of_mem x h')

theorem insertUnique_mem {l : List ModuleInfo} {m x : ModuleInfo}
    (h : x ∈ insertUnique l m) : x ∈ l ∨ x = m := by
  unfold insertUnique at h
  split at h
  · exact Or.inl h
  · rcases List.mem_append.mp h with h' | h'
    · exact Or.inl h'
    · simp only [List.mem_singleton] at h'
      exact Or.inr h'

theorem insertUnique_nodup {l : List ModuleInfo} {m : ModuleInfo}
    (h : l.Nodup) : (insertUnique l m).Nodup := by
  unfold insertUnique
  split
  · exact h
  · rename_i hn
    apply List.Nodup.append h (by simp)
    intro a ha hma
    simp only [List.mem_singleton] at hma
    exact hn (hma ▸ ha)

theorem foldl_insertUnique_pairs_spec (modules : List ModuleInfo) :
    ∀ (l : List (ModuleInfo × Nat)) (acc : List ModuleInfo),
      (∀ x ∈ acc, x ∈ modules) → (∀ e ∈ l, e.1 ∈ modules) → acc.Nodup →
      (∀ x ∈ l.foldl (fun acc mv => insertUnique acc mv.1) acc, x ∈ modules) ∧
        (l.foldl (fun acc mv => insertUnique acc mv.1) acc).Nodup
  | [], acc, hacc, _, hnd => ⟨hacc, hnd⟩
  | e :: l, acc, hacc, hl, hnd => by
    simp only [List.foldl_cons]
    apply foldl_insertUnique_pairs_spec modules l
    · intro x hx
      rcases insertUnique_mem hx with h' | h'
      · exact hacc x h'
      · exact h' ▸ hl e (List.mem_cons_self e l)
    · exact fun e' he' => hl e' (List.mem_cons_of_mem e he')
    · exact insertUnique_nodup hnd

theorem foldl_insertUnique_mods_spec (modules : List ModuleInfo) :
    ∀ (l : List ModuleInfo) (acc : List ModuleInfo),
      (∀ x ∈ acc, x ∈ modules) → (∀ e ∈ l, e ∈ modules) → acc.Nodup →
      (∀ x ∈ l.foldl insertUnique acc, x ∈ modules) ∧
        (l.foldl insertUnique acc).Nodup
  | [], acc, hacc, _, hnd => ⟨hacc, hnd⟩
  | e :: l, acc, hacc, hl, hnd => by
    simp only [List.foldl_cons]
    apply foldl_insertUnique_mods_spec modules l
    · intro x hx
      rcases insertUnique_mem hx with h' | h'
      · exact hacc x h'
      · exact h' ▸ hl e (List.mem_cons_self e l)
    · exact fun e' he' => hl e' (List.mem_cons_of_mem e he')
    · exact insertUnique_nodup hnd

theorem prefilter_spec (modules : List ModuleInfo) :
    (∀ x ∈ prefilter_modules modules, x ∈ modules) ∧
      (prefilter_modules modules).Nodup := by
  unfold prefilter_modules
  split
  · exact ⟨fun x hx => by simp at hx, by simp⟩
  · have hper : ∀ (attrs : List Nat) (acc : List ModuleInfo),
        (∀ x ∈ acc, x ∈ modules) → acc.Nodup →
        (∀ x ∈ attrs.foldl (fun acc a =>
            ((sortDescBy (fun mv => mv.2) ((modules.map (fun m =>
              (m.parts.filter (fun p => p.name = a)).map
                (fun p => (m, p.value)))).flatten)).take 30).foldl
              (fun acc mv => insertUnique acc mv.1) acc) acc, x ∈ modules) ∧
          (attrs.foldl (fun acc a =>
            ((sortDescBy (fun mv => mv.2) ((modules.map (fun m =>
              (m.parts.filter (fun p => p.name = a)).map
                (fun p => (m, p.value)))).flatten)).take 30).foldl
              (fun acc mv => insertUnique acc mv.1) acc) acc).Nodup := by
      intro attrs
      induction attrs with
      | nil => exact fun acc h hn => ⟨h, hn⟩
      | cons a attrs ih =>
        intro acc hacc hnd
        simp only [List.foldl_cons]
        apply ih
        · refine (foldl_insertUnique_pairs_spec modules _ acc hacc ?_ hnd).1
          intro e he
          have he' := sortDescBy_mem.mp (List.mem_of_mem_take he)
          rcases List.mem_flatten.mp he' with ⟨inner, hinner, hein⟩
          rcases List.mem_map.mp hinner with ⟨m, hm, hmeq⟩
          rw [← hmeq] at hein
          rcases List.mem_map.mp hein with ⟨pp, _, hpeq⟩
          rw [← hpeq]
          exact hm
        · refine (foldl_insertUnique_pairs_spec modules _ acc hacc ?_ hnd).2
          intro e he
          have he' := sortDescBy_mem.mp (List.mem_of_mem_take he)
          rcases List.mem_flatten.mp he' with ⟨inner, hinner, hein⟩
          rcases List.mem_map.mp hinner with ⟨m, hm, hmeq⟩
          rw [← hmeq] at hein
          rcases List.mem_map.mp hein with ⟨pp, _, hpeq⟩
          rw [← hpeq]
          exact hm
    have hbase := hper (firstDedup ((modules.map (fun m => m.parts.map (·.name))).flatten))
      [] (fun x hx => by simp at hx) (by simp)
    apply foldl_insertUnique_mods_spec modules
    · exact hbase.1
    · intro e he
      exact sortDescBy_mem.mp (List.mem_of_mem_take he)
    · exact hbase.2

theorem prefilter_uuid_nodup {modules : List ModuleInfo}
    (h : (modules.map (·.uuid)).Nodup) :
    ((prefilter_modules modules).map (·.uuid)).Nodup := by
  obtain ⟨hsub, hnd⟩ := prefilter_spec modules
  have hinj := List.inj_on_of_nodup_map h
  exact (List.nodup_map_iff_inj_on hnd).mpr
    (fun x hx y hy hxy => hinj (hsub x hx) (hsub y hy) hxy)

theorem solWf_mono {P Q : List ModuleInfo} (hPQ : ∀ m ∈ P, m ∈ Q)
    {s : ModuleSolution} (h : SolWf P s) : SolWf Q s :=
  ⟨h.1, h.2.1, fun m hm => hPQ m (h.2.2.1 m hm), h.2.2.2⟩

theorem temp_list_spec {pool : List ModuleInfo} {sol : ModuleSolution} {i : Nat}
    {nm : ModuleInfo} (h : SolWf pool sol) (hi : i < sol.modules.length)
    (hnm : nm ∈ pool)
    (hfresh : nm.uuid ∉ (sol.modules.map (·.uuid)).eraseIdx i) :
    (sol.modules.take i ++ [nm] ++ sol.modules.drop (i + 1)).length = 4 ∧
    ((sol.modules.take i ++ [nm] ++ sol.modules.drop (i + 1)).map (·.uuid)).Nodup ∧
    ∀ m ∈ sol.modules.take i ++ [nm] ++ sol.modules.drop (i + 1), m ∈ pool := by
  have heq : sol.modules.take i ++ [nm] ++ sol.modules.drop (i + 1) =
      sol.modules.set i nm := by
    rw [List.set_eq_take_cons_drop nm hi, List.append_assoc]
    rfl
  rw [heq]
  refine ⟨?_, ?_, ?_⟩
  · rw [List.length_set, h.1]
  · rw [List.map_set]
    exact nodup_set_of_not_mem_eraseIdx _ _ _ h.2.1
      (by rw [List.length_map]; exact hi) hfresh
  · intro m hm
    rcases List.mem_or_eq_of_mem_set hm with h' | h'
    · exact h.2.2.1 m h'
    · exact h' ▸ hnm

theorem lsiScanPool_some_spec (category : ModuleCategory) (pri : Option (List Nat))
    {pool : List ModuleInfo} {sol : ModuleSolution} {i : Nat}
    (h : SolWf pool sol) (hi : i < sol.modules.length) :
    ∀ (ps : List ModuleInfo), (∀ m ∈ ps, m ∈ pool) →
      ∀ {r : ModuleSolution}, lsiScanPool category pri sol i ps = some r →
      SolWf pool r ∧ sol.optimization_score < r.optimization_score ∧
        ∃ ms, r.optimization_score = calculate_fitness ms category pri ∧
          ms.length = 4 ∧ ∀ m ∈ ms, m ∈ pool
  | [], _, r, hr => by simp [lsiScanPool] at hr
  | nm :: ps, hps, r, hr => by
    unfold lsiScanPool at hr
    split at hr
    · exact lsiScanPool_some_spec category pri h hi ps
        (fun m hm => hps m (List.mem_cons_of_mem nm hm)) hr
    · rename_i hfresh
      dsimp only at hr
      split at hr
      · rename_i hlt
        simp only [Option.some.injEq] at hr
        have hnm : nm ∈ pool := hps nm (List.mem_cons_self nm ps)
        obtain ⟨hlen, hnd, hmem⟩ := temp_list_spec h hi hnm
          (fun hc => hfresh (List.mem_of_mem_eraseIdx hc))
        rw [← hr]
        refine ⟨⟨?_, ?_, ?_, h.2.2.2⟩, hlt, ?_⟩
        · rw [sortByUuid_length]
          exact hlen
        · exact sortByUuid_uuid_nodup hnd
        · exact fun m hm => hmem m (sortByUuid_mem.mp hm)
        · exact ⟨_, rfl, hlen, hmem⟩
      · exact lsiScanPool_some_spec category pri h hi ps
          (fun m hm => hps m (List.mem_cons_of_mem nm hm)) hr

theorem lsiScanPool_none_spec (category : ModuleCategory) (pri : Option (List Nat))
    {sol : ModuleSolution} {i : Nat} :
    ∀ (ps : List ModuleInfo), lsiScanPool category pri sol i ps = none →
      ∀ nm ∈ ps, nm.uuid ∉ sol.modules.map (·.uuid) →
        calculate_fitness (sol.modules.take i ++ [nm] ++ sol.modules.drop (i + 1))
          category pri ≤ sol.optimization_score
  | [], _, nm, hnm, _ => by simp at hnm
  | nm0 :: ps, hnone, nm, hnm, hfresh => by
    unfold lsiScanPool at hnone
    split at hnone
    · rename_i hin
      rcases List.mem_cons.mp hnm with h' | h'
      · exact absurd (h' ▸ hfresh) (fun hc => hc hin)
      · exact lsiScanPool_none_spec category pri ps hnone nm h' hfresh
    · dsimp only at hnone
      split at hnone
      · exact absurd hnone (by simp)
      · rename_i hnlt
        rcases List.mem_cons.mp hnm with h' | h'
        · rw [h']
          exact le_of_not_lt hnlt
        · exact lsiScanPool_none_spec category pri ps hnone nm h' hfresh

theorem lsiScanSlots_some_spec (category : ModuleCategory) (pri : Option (List Nat))
    {pool : List ModuleInfo} {sol : ModuleSolution}
    (h : SolWf pool sol) (hpool : ∀ m ∈ pool, m ∈ pool) :
    ∀ (is : List Nat), (∀ i ∈ is, i < sol.modules.length) →
      ∀ {r : ModuleSolution},
        lsiScanSlots category pri pool sol is = some r →
        SolWf pool r ∧ sol.optimization_score < r.optimization_score ∧
          ∃ ms, r.optimization_score = calculate_fitness ms category pri ∧
            ms.length = 4 ∧ ∀ m ∈ ms, m ∈ pool
  | [], _, r, hr => by simp [lsiScanSlots] at hr
  | i :: is, hbound, r, hr => by
    unfold lsiScanSlots at hr
    split at hr
    · rename_i s hs
      simp only [Option.some.injEq] at hr
      have := lsiScanPool_some_spec category pri h
        (hbound i (List.mem_cons_self i is)) pool (fun m hm => hm) hs
      exact hr ▸ this
    · exact lsiScanSlots_some_spec category pri h hpool is
        (fun j hj => hbound j (List.mem_cons_of_mem i hj)) hr

theorem lsiScanSlots_none_spec (category : ModuleCategory) (pri : Option (List Nat))
    {pool : List ModuleInfo} {sol : ModuleSolution} :
    ∀ (is : List Nat), lsiScanSlots category pri pool sol is = none →
      ∀ i ∈ is, lsiScanPool category pri sol i pool = none
  | [], _, i, hi => by simp at hi
  | j :: is, hnone, i, hi => by
    unfold lsiScanSlots at hnone
    split at hnone
    · exact absurd hnone (by simp)
    · rename_i hj
      rcases List.mem_cons.mp hi with h' | h'
      · exact h' ▸ hj
      · exact lsiScanSlots_none_spec category pri is hnone i h'

theorem lsiLoop_spec (category : ModuleCategory) (pri : Option (List Nat))
    {pool : List ModuleInfo} :
    ∀ (fuel : Nat) {sol r : ModuleSolution}, SolWf pool sol →
      lsiLoop category pri pool fuel sol = .ok r →
      SolWf pool r ∧ sol.optimization_score ≤ r.optimization_score ∧
        (∀ i, i < r.modules.length → ∀ nm ∈ pool,
          nm.uuid ∉ r.modules.map (·.uuid) →
          calculate_fitness (r.modules.take i ++ [nm] ++ r.modules.drop (i + 1))
            category pri ≤ r.optimization_score)
  | 0, sol, r, h, hok => by simp [lsiLoop] at hok
  | fuel + 1, sol, r, h, hok => by
    unfold lsiLoop at hok
    split at hok
    · rename_i hnone
      simp only [Except.ok.injEq] at hok
      subst hok
      refine ⟨h, le_refl _, ?_⟩
      intro i hi nm hnm hfresh
      exact lsiScanPool_none_spec category pri pool
        (lsiScanSlots_none_spec category pri _ hnone i (List.mem_range.mpr hi))
        nm hnm hfresh
    · rename_i s hs
      obtain ⟨hwf, hlt, _⟩ := lsiScanSlots_some_spec category pri h
        (fun m hm => hm) _ (fun i hi => by rw [← List.mem_range]; exact hi) hs
      obtain ⟨hwf', hle', hopt'⟩ := lsiLoop_spec category pri fuel hwf hok
      exact ⟨hwf', le_trans (le_of_lt hlt) hle', hopt'⟩

theorem local_search_improvement_spec (category : ModuleCategory)
    (pri : Option (List Nat)) {pool : List ModuleInfo}
    {sol r : ModuleSolution} {fuel : Nat}
    (h : SolWf pool sol)
    (hok : _local_search_improvement sol pool category pri fuel = .ok r) :
    SolWf pool r ∧ calculate_fitness sol.modules category pri ≤ r.optimization_score ∧
      (∀ i, i < r.modules.length → ∀ nm ∈ pool,
        nm.uuid ∉ r.modules.map (·.uuid) →
        calculate_fitness (r.modules.take i ++ [nm] ++ r.modules.drop (i + 1))
          category pri ≤ r.optimization_score) := by
  unfold _local_search_improvement at hok
  exact lsiLoop_spec category pri fuel (solWf_withScore h _) hok

theorem mapM_lsi_wf (category : ModuleCategory) (pri : Option (List Nat))
    {cand : List ModuleInfo} {fuel : Nat} :
    ∀ (l res : List ModuleSolution), (∀ s ∈ l, SolWf cand s) →
      l.mapM (fun s => _local_search_improvement s cand category pri fuel) = .ok res →
      ∀ s ∈ res, SolWf cand s
  | [], res, _, hok => by
    simp only [List.mapM_nil, pure, Except.pure, Except.ok.injEq] at hok
    intro s hs
    rw [← hok] at hs
    simp at hs
  | x :: xs, res, hl, hok => by
    rw [List.mapM_cons] at hok
    rw [except_bind_ok_iff] at hok
    obtain ⟨y, hy, hok⟩ := hok
    rw [except_bind_ok_iff] at hok
    obtain ⟨ys, hys, hok⟩ := hok
    simp only [pure, Except.pure, Except.ok.injEq] at hok
    have hywf := (local_search_improvement_spec category pri
      (hl x (List.mem_cons_self x xs)) hy).1
    have hyswf := mapM_lsi_wf category pri xs ys
      (fun s hs => hl s (List.mem_cons_of_mem x hs)) hys
    rw [← hok]
    intro s hs
    rcases List.mem_cons.mp hs with h' | h'
    · exact h' ▸ hywf
    · exact hyswf s h'

theorem refinePhase_wf {lq : List ModuleInfo} {unique : List ModuleSolution}
    {cand : List ModuleInfo} {category : ModuleCategory} {pri : Option (List Nat)}
    {fuel : Nat} {res : List ModuleSolution}
    (hu : ∀ s ∈ unique, SolWf cand s)
    (hok : refinePhase lq unique cand category pri fuel = .ok res) :
    ∀ s ∈ res, SolWf cand s := by
  unfold refinePhase at hok
  split at hok
  · simp only [Except.ok.injEq] at hok
    exact hok ▸ hu
  · exact mapM_lsi_wf category pri _ res
      (fun s hs => hu s (List.mem_of_mem_take hs)) hok

theorem strict_filtered_pool_sublist (catMap : Nat → ModuleCategory)
    (modules : List ModuleInfo) (category : ModuleCategory)
    (pa : Option (List Nat)) :
    (strict_filtered_pool catMap modules category pa).Sublist modules := by
  unfold strict_filtered_pool
  dsimp only
  have hbase : (if category = ModuleCategory.All then modules
      else modules.filter (fun m => get_module_category catMap m = category)).Sublist
      modules := by
    split
    · exact List.Sublist.refl modules
    · exact List.filter_sublist modules
  split
  · exact (List.filter_sublist _).trans hbase
  · exact hbase

theorem qualitySplit_fst_mem (cand : List ModuleInfo) :
    ∀ m ∈ (qualitySplit cand).1, m ∈ cand := by
  unfold qualitySplit
  dsimp only
  split
  · exact fun m hm => hm
  · exact fun m hm => List.mem_of_mem_filter hm

theorem qualitySplit_fst_uuid_nodup {cand : List ModuleInfo}
    (h : (cand.map (·.uuid)).Nodup) :
    (((qualitySplit cand).1).map (·.uuid)).Nodup := by
  unfold qualitySplit
  dsimp only
  split
  · exact h
  · exact ((List.filter_sublist cand).map (·.uuid)).nodup h

theorem optimize_modules_output_wf {g : Nat → Sampler} {num_campaigns : Nat}
    {catMap : Nat → ModuleCategory} {pcfg : PowerConfig}
    {modules : List ModuleInfo} {category : ModuleCategory} {top_n : Nat}
    {pa : Option (List Nat)} {fuel : Nat} {out : List ModuleSolution}
    (hnd : (modules.map (·.uuid)).Nodup)
    (hok : optimize_modules g num_campaigns catMap pcfg modules category
      top_n pa fuel = .ok out) :
    ∀ s ∈ out, s.modules.length = 4 ∧ (s.modules.map (·.uuid)).Nodup ∧
      (∀ m ∈ s.modules, m ∈ modules) ∧
      s.attr_breakdown = (calculate_combat_power pcfg s.modules).2 := by
  unfold optimize_modules at hok
  have hmp := strict_filtered_pool_sublist catMap modules category pa
  have hmpnd : ((strict_filtered_pool catMap modules category pa).map (·.uuid)).Nodup :=
    (hmp.map (·.uuid)).nodup hnd
  dsimp only at hok
  split at hok
  · simp only [Except.ok.injEq] at hok
    intro s hs
    rw [← hok] at hs
    simp at hs
  · split at hok
    · simp only [Except.ok.injEq] at hok
      intro s hs
      rw [← hok] at hs
      simp at hs
    · rw [except_bind_ok_iff] at hok
      obtain ⟨allbest, hcollect, hok⟩ := hok
      rw [except_bind_ok_iff] at hok
      obtain ⟨refined, hrefine, hok⟩ := hok
      simp only [Except.ok.injEq] at hok
      set mp := strict_filtered_pool catMap modules category pa with hmpdef
      set cand := prefilter_modules mp with hcanddef
      have hcandsub := (prefilter_spec mp).1
      have hcandnd : (cand.map (·.uuid)).Nodup := prefilter_uuid_nodup hmpnd
      have hallwf : ∀ s ∈ allbest, SolWf cand s := by
        intro s hs
        apply solWf_mono (qualitySplit_fst_mem cand)
        exact collectCampaigns_wf (qualitySplit_fst_uuid_nodup hcandnd)
          num_campaigns allbest hcollect s hs
      have huniq : ∀ s ∈ sortDescBy (·.optimization_score) (dedupByCombo allbest),
          SolWf cand s := by
        intro s hs
        exact hallwf s (dedupByCombo_mem s (sortDescBy_mem.mp hs))
      have hrefwf : ∀ s ∈ refined, SolWf cand s :=
        refinePhase_wf huniq hrefine
      intro s hs
      rw [← hok] at hs
      have hs1 := List.mem_of_mem_take hs
      have hs2 := sortDescBy_mem.mp hs1
      have hs3 := dedupByLevelKey_mem s hs2
      have hs4 := sortDescBy_mem.mp hs3
      rcases List.mem_map.mp hs4 with ⟨s0, hs0, hseq⟩
      have hs0wf : SolWf cand s0 := by
        rcases List.mem_append.mp hs0 with h' | h'
        · exact huniq s0 h'
        · exact hrefwf s0 h'
      have hbempty : s0.attr_breakdown.isEmpty = true := by
        rw [hs0wf.2.2.2]
        rfl
      have hseq' : s = { s0 with
          score := (calculate_combat_power pcfg s0.modules).1,
          attr_breakdown := (calculate_combat_power pcfg s0.modules).2 } := by
        rw [← hseq]
        rw [if_pos hbempty]
      have hmods : s.modules = s0.modules := by
        rw [hseq']
      refine ⟨?_, ?_, ?_, ?_⟩
      · rw [hmods]
        exact hs0wf.1
      · rw [hmods]
        exact hs0wf.2.1
      · intro m hm
        rw [hmods] at hm
        exact hmp.subset (hcandsub m (hs0wf.2.2.1 m hm))
      · rw [hseq']

theorem initLoop_done {g : Sampler} {category : ModuleCategory}
    {pri : Option (List Nat)} {pool : List ModuleInfo} {target : Nat}
    (fuel : Nat) (pop : List ModuleSolution) (seen : List (List Nat)) (c : Nat)
    (h : target ≤ pop.length) :
    initLoop g category pri pool target fuel pop seen c = .ok (pop, c) := by
  cases fuel with
  | zero =>
    unfold initLoop
    rw [if_pos h]
  | succ fuel =>
    unfold initLoop
    rw [if_pos h]

theorem fillNextGen_small_error (g : Sampler) (category : ModuleCategory)
    (pri : Option (List Nat)) (pool : List ModuleInfo)
    (population : List ModuleSolution) (fuel : Nat)
    (hpop : population.length < gaParams.tournament_size) :
    ∀ (ng : List ModuleSolution) (c2 : Nat),
      ng.length < gaParams.population_size →
      fillNextGen g gaParams category pri pool population (fuel + 1) ng c2 =
        .error GaErr.valueError := by
  intro ng c2 hng
  unfold fillNextGen
  rw [if_neg (Nat.not_le.mpr hng)]
  rw [_selection, sample, if_pos hpop]

theorem genLoop_singleton_error (g : Sampler) (category : ModuleCategory)
    (pri : Option (List Nat)) (pool : List ModuleInfo) (fuel c gens : Nat)
    (s : ModuleSolution) :
    genLoop g gaParams category pri pool (fuel + 1) (gens + 1) [s] c =
      .error GaErr.valueError := by
  unfold genLoop runGeneration
  dsimp only
  rw [fillNextGen_small_error g category pri pool _ fuel
    (by
      rw [sortDescBy_length]
      simp only [List.length_cons, List.length_nil]
      decide) _ c
    (by
      rw [List.length_take, sortDescBy_length]
      simp only [List.length_cons, List.length_nil]
      decide)]
  rfl

theorem campaign_pool4_error (g : Sampler) (fuel : Nat) :
    run_single_ga_campaign g pool4 ModuleCategory.All none gaParams (fuel + 1) =
      .error GaErr.valueError := by
  unfold run_single_ga_campaign _initialize_population
  rw [if_neg (by decide)]
  dsimp only
  rw [if_neg (by decide)]
  unfold initLoop
  rw [if_neg (by decide)]
  rw [sample, if_neg (by decide)]
  dsimp only
  rw [if_neg (by simp)]
  rw [initLoop_done fuel _ _ _ (by
    simp only [List.nil_append, List.length_cons, List.length_nil]
    have h1 : pool4.length.choose 4 = 1 := by decide
    rw [h1]
    decide)]
  rw [except_bind_ok]
  dsimp only
  rw [if_neg (by simp)]
  rw [List.nil_append]
  rw [show gaParams.generations = 39 + 1 from rfl]
  rw [genLoop_singleton_error g ModuleCategory.All none pool4 fuel _ 39 _]
  rfl

theorem collect_pool4 (g : Nat → Sampler) (fuel : Nat) :
    ∀ n, collectCampaigns g pool4 ModuleCategory.All none (fuel + 1) n = .ok [] := by
  intro n
  induction n with
  | zero => rfl
  | succ n ih =>
    unfold collectCampaigns
    rw [ih, except_bind_ok, campaign_pool4_error (g n) fuel]

theorem optimize_pool4_empty (g : Nat → Sampler) (n top_n : Nat)
    (catMap : Nat → ModuleCategory) (pcfg : PowerConfig) (fuel : Nat) :
    optimize_modules g n catMap pcfg pool4 ModuleCategory.All top_n none (fuel + 1) =
      .ok [] := by
  simp only [optimize_modules]
  rw [show strict_filtered_pool catMap pool4 ModuleCategory.All none = pool4 from rfl]
  rw [show _preliminary_check pool4 none = true from rfl]
  rw [if_neg (by decide)]
  rw [show prefilter_modules pool4 = pool4 from by decide]
  rw [if_neg (by decide)]
  rw [show qualitySplit pool4 = (pool4, []) from by decide]
  rw [collect_pool4 g fuel n, except_bind_ok]
  rw [show dedupByCombo [] = [] from rfl]
  rw [show sortDescBy (fun s : ModuleSolution => s.optimization_score) [] = [] from rfl]
  rw [show refinePhase [] [] pool4 ModuleCategory.All none (fuel + 1) = .ok [] from rfl]
  rw [except_bind_ok]
  simp [dedupByLevelKey, sortDescBy]

/-- C2: the spec claims a pool of exactly 4 feasible modules yields exactly
that combination with its combat power.  In the code the initial population
holds the single possible combination (`math.comb(4, 4) = 1`), `_selection`
then calls `random.sample(population, tournament_size=5)` on that length-1
population, which raises `ValueError`; every campaign dies with it,
`optimize_modules` swallows the worker failures and returns the empty
list. -/
theorem c2_four_module_pool_returns_empty :
    (∀ (g : Sampler) (fuel : Nat),
      run_single_ga_campaign g pool4 ModuleCategory.All none gaParams (fuel + 1) =
        .error GaErr.valueError) ∧
    ∀ (g : Nat → Sampler) (n top_n : Nat) (catMap : Nat → ModuleCategory)
      (pcfg : PowerConfig) (fuel : Nat),
      optimize_modules g n catMap pcfg pool4 ModuleCategory.All top_n none (fuel + 1) =
        .ok [] :=
  ⟨campaign_pool4_error, optimize_pool4_empty⟩

/-- C5: with a truthy priority list whose intersection with the attribute
names of the strict-filtered pool has fewer than 2 elements,
`optimize_modules` returns the empty list (no exception reaches the
caller: the result is `.ok []`). -/
theorem c5_infeasible_priority_returns_empty (g : Nat → Sampler) (n : Nat)
    (catMap : Nat → ModuleCategory) (pcfg : PowerConfig)
    (modules : List ModuleInfo) (category : ModuleCategory) (top_n : Nat)
    (pri : List Nat) (fuel : Nat) (hne : pri.isEmpty = false)
    (hint : ((availableAttrs (strict_filtered_pool catMap modules category
        (some pri))).filter (fun a => a ∈ pri)).length < 2) :
    optimize_modules g n catMap pcfg modules category top_n (some pri) fuel =
      .ok [] := by
  have hpc : _preliminary_check
      (strict_filtered_pool catMap modules category (some pri)) (some pri) = false := by
    simp only [_preliminary_check]
    rw [if_neg (by rw [hne]; decide)]
    exact decide_eq_false (Nat.not_le.mpr hint)
  unfold optimize_modules
  dsimp only
  rw [hpc]
  rfl

theorem c5_priority_intersection_witness :
    ([3] : List Nat).isEmpty = false ∧
    ((availableAttrs (strict_filtered_pool catMapDemo c1mods ModuleCategory.All
        (some [3]))).filter (fun a => a ∈ [3])).length < 2 ∧
    optimize_modules (fun _ => gTab) 1 catMapDemo pcfgDemo c1mods
        ModuleCategory.All 20 (some [3]) 1 = .ok [] :=
  ⟨rfl, by decide, c5_infeasible_priority_returns_empty (fun _ => gTab) 1 catMapDemo
    pcfgDemo c1mods ModuleCategory.All 20 [3] 1 rfl (by decide)⟩

theorem parse_parts_length (attrNames : Nat → Nat) :
    ∀ (ps vs : List Nat), (parse_parts attrNames ps vs).length = min ps.length vs.length
  | [], vs => by simp [parse_parts]
  | p :: ps, [] => by simp [parse_parts]
  | p :: ps, v :: vs => by
    simp only [parse_parts, List.length_cons, parse_parts_length attrNames ps vs]
    omega

/-- C9: a record whose declared part list and attribute value list have
different lengths is truncated to the shorter one — the parsed module is
still accepted (it heads the output list) and its parts list has length
`min (number of declared parts) (number of attribute values)`. -/
theorem c9_parser_truncates_to_min (moduleNames attrNames : Nat → Nat)
    (it : PackItem) (rest : List PackItem)
    (hf : it.hasModNewAttr = true) (hne : it.modParts.isEmpty = false) :
    ∃ m tl, parse_module_info moduleNames attrNames (it :: rest) = m :: tl ∧
      m.uuid = it.uuid ∧ m.config_id = it.configId ∧
      m.parts.length = min it.modParts.length it.initLinkNums.length := by
  refine ⟨⟨moduleNames it.configId, it.configId, it.uuid, it.quality,
      parse_parts attrNames it.modParts it.initLinkNums⟩,
    parse_module_info moduleNames attrNames rest, ?_, rfl, rfl,
    parse_parts_length attrNames it.modParts it.initLinkNums⟩
  simp only [parse_module_info]
  rw [if_pos ⟨hf, by rw [hne]; decide⟩]

theorem c9_truncation_witness :
    (⟨true, [7, 8, 9], 1, 11, 2, [5, 6]⟩ : PackItem).hasModNewAttr = true ∧
    (⟨true, [7, 8, 9], 1, 11, 2, [5, 6]⟩ : PackItem).modParts.isEmpty = false ∧
    ∃ m tl, parse_module_info (fun x => x) (fun x => x)
        [(⟨true, [7, 8, 9], 1, 11, 2, [5, 6]⟩ : PackItem)] = m :: tl ∧
      m.uuid = 11 ∧ m.config_id = 1 ∧ m.parts.length = min 3 2 :=
  ⟨rfl, rfl, c9_parser_truncates_to_min (fun x => x) (fun x => x)
    ⟨true, [7, 8, 9], 1, 11, 2, [5, 6]⟩ [] rfl rfl⟩

/-- C10: with fewer than 4 candidate modules of total part value at least
the quality threshold 12, the quality split hands the whole candidate pool
to the campaigns and empties the low-quality pool, so the refinement phase
is skipped and returns the unique solutions unchanged. -/
theorem c10_small_high_quality_pool_skips_refinement (cand : List ModuleInfo)
    (h : (cand.filter (fun m => 12 ≤ (m.parts.map (·.value)).sum)).length < 4) :
    qualitySplit cand = (cand, []) ∧
    ∀ (unique : List ModuleSolution) (category : ModuleCategory)
      (pri : Option (List Nat)) (fuel : Nat),
      refinePhase (qualitySplit cand).2 unique cand category pri fuel = .ok unique := by
  have hq : qualitySplit cand = (cand, []) := by
    unfold qualitySplit
    dsimp only
    rw [if_pos h]
  exact ⟨hq, fun unique category pri fuel => by rw [hq]; rfl⟩

theorem c10_quality_split_witness :
    ((c1mods.filter (fun m => 12 ≤ (m.parts.map (·.value)).sum)).length < 4) ∧
    qualitySplit c1mods = (c1mods, []) ∧
    refinePhase (qualitySplit c1mods).2 [] c1mods ModuleCategory.All none 0 = .ok [] :=
  ⟨by decide,
    (c10_small_high_quality_pool_skips_refinement c1mods (by decide)).1,
    (c10_small_high_quality_pool_skips_refinement c1mods (by decide)).2 []
      ModuleCategory.All none 0⟩

theorem clampScore_nonneg (s : Int) : 0 ≤ clampScore s := by
  unfold clampScore
  split <;> omega

theorem clampScore_le {s B : Int} (hs : s ≤ B) (hB : 0 ≤ B) : clampScore s ≤ B := by
  unfold clampScore
  split <;> omega

/-- C1: `calculate_fitness` never returns a negative score (the final
`max(0.0, score)`); the spec's further claim that fewer than 2 matching
prioritized attributes forces the score to exactly 0 does not hold (see the
counterexample). -/
theorem c1_fitness_nonnegative (modules : List ModuleInfo)
    (category : ModuleCategory) (pri : Option (List Nat)) :
    0 ≤ calculate_fitness modules category pri := by
  unfold calculate_fitness
  split
  · exact le_refl 0
  · dsimp only
    exact clampScore_nonneg _

/-- Counterexample to C1's second half: `c1mods` with priority list
`[1, 2]` matches 0 < 2 prioritized attributes, yet its fitness is the
nonzero clamped score (the code has no "fewer than 2 matches scores 0"
rule: the mismatch penalty of −50 per foreign attribute is simply
outweighed by the tier bonus). -/
theorem c1_low_match_nonzero_counterexample :
    matchCount c1mods [1, 2] < 2 ∧ truthy (some [1, 2]) = true ∧
    calculate_fitness c1mods ModuleCategory.All (some [1, 2]) ≠ 0 := by
  decide

/-- C4: every solution returned by `optimize_modules` has exactly 4
modules, pairwise distinct by uuid, and every operation that builds or
modifies a solution — initialization, crossover, mutation, the campaign
local search and the refinement local search — preserves that invariant
(`SolWf`: 4 modules, distinct uuids, drawn from the pool). -/
theorem c4_four_distinct_modules_invariant :
    (∀ (g : Nat → Sampler) (n : Nat) (catMap : Nat → ModuleCategory)
      (pcfg : PowerConfig) (modules : List ModuleInfo) (category : ModuleCategory)
      (top_n : Nat) (pa : Option (List Nat)) (fuel : Nat) (out : List ModuleSolution),
      (modules.map (·.uuid)).Nodup →
      optimize_modules g n catMap pcfg modules category top_n pa fuel = .ok out →
      ∀ s ∈ out, s.modules.length = 4 ∧ (s.modules.map (·.uuid)).Nodup) ∧
    (∀ (g : Sampler) (category : ModuleCategory) (pri : Option (List Nat))
      (pool : List ModuleInfo) (size fuel c : Nat) (res : List ModuleSolution × Nat),
      (pool.map (·.uuid)).Nodup →
      _initialize_population g category pri pool size fuel c = .ok res →
      ∀ s ∈ res.1, SolWf pool s) ∧
    (∀ (pool : List ModuleInfo) (g : Sampler) (p : GaParams)
      (p1 p2 : ModuleSolution) (c : Nat), SolWf pool p1 → SolWf pool p2 →
      SolWf pool (_crossover g p p1 p2 c).1.1 ∧
        SolWf pool (_crossover g p p1 p2 c).1.2) ∧
    (∀ (pool : List ModuleInfo) (g : Sampler) (p : GaParams)
      (sol : ModuleSolution) (c : Nat), SolWf pool sol →
      SolWf pool (_mutate g p sol pool c).1) ∧
    (∀ (category : ModuleCategory) (pri : Option (List Nat))
      (pool : List ModuleInfo) (fuel : Nat) (sol r : ModuleSolution),
      SolWf pool sol → _local_search category pri pool fuel sol = .ok r →
      SolWf pool r) ∧
    (∀ (category : ModuleCategory) (pri : Option (List Nat))
      (pool : List ModuleInfo) (sol r : ModuleSolution) (fuel : Nat),
      SolWf pool sol →
      _local_search_improvement sol pool category pri fuel = .ok r →
      SolWf pool r) := by
  refine ⟨?_, ?_, ?_, ?_, ?_, ?_⟩
  · intro g n catMap pcfg modules category top_n pa fuel out hnd hok s hs
    exact ⟨(optimize_modules_output_wf hnd hok s hs).1,
      (optimize_modules_output_wf hnd hok s hs).2.1⟩
  · intro g category pri pool size fuel c res hnd hok
    exact _initialize_population_wf hnd hok
  · intro pool g p p1 p2 c h1 h2
    exact crossover_children_wf h1 h2
  · intro pool g p sol c h
    exact mutate_wf h
  · intro category pri pool fuel sol r h hok
    exact local_search_wf category pri fuel h hok
  · intro category pri pool sol r fuel h hok
    exact (local_search_improvement_spec category pri h hok).1

/-- C3 (corrected): with a nonempty low-quality pool the refinement phase
does refine the top 30 unique solutions against the entire candidate pool,
but by FIRST-improvement local search (`_local_search_improvement` adopts
the first strictly improving swap and restarts the scan), not
best-improvement; its result is nevertheless locally optimal — no single
swap against the whole pool improves it. -/
theorem c3_refinement_first_improvement_all_pool
    (lq : List ModuleInfo) (unique : List ModuleSolution)
    (cand : List ModuleInfo) (category : ModuleCategory)
    (pri : Option (List Nat)) (fuel : Nat) (hlq : lq.isEmpty = false) :
    refinePhase lq unique cand category pri fuel =
      (unique.take 30).mapM
        (fun s => _local_search_improvement s cand category pri fuel) ∧
    ∀ (s r : ModuleSolution), SolWf cand s →
      _local_search_improvement s cand category pri fuel = .ok r →
      SolWf cand r ∧
        calculate_fitness s.modules category pri ≤ r.optimization_score ∧
        ∀ i, i < r.modules.length → ∀ nm ∈ cand,
          nm.uuid ∉ r.modules.map (·.uuid) →
          calculate_fitness (r.modules.take i ++ [nm] ++ r.modules.drop (i + 1))
            category pri ≤ r.optimization_score := by
  constructor
  · unfold refinePhase
    rw [if_neg (by rw [hlq]; decide)]
  · intro s r hs hok
    exact local_search_improvement_spec category pri hs hok

theorem c3_refinement_witness :
    poolC3.isEmpty = false ∧
    refinePhase poolC3 [] poolC3 ModuleCategory.All none 1 =
      (([] : List ModuleSolution).take 30).mapM
        (fun s => _local_search_improvement s poolC3 ModuleCategory.All none 1) :=
  ⟨rfl, (c3_refinement_first_improvement_all_pool poolC3 [] poolC3
    ModuleCategory.All none 1 rfl).1⟩

/-- Counterexample to C3's "best-improvement" wording: on `solC3` over
`poolC3` the code's first-improvement refinement adopts the marginally
better physical module (uuid 5) in the first slot it improves, while
best-improvement (the spec-modelled `bestImprovementRefine`) adopts the
far better magic module (uuid 6); the two runs end in different
combinations. -/
theorem c3_not_best_improvement_counterexample :
    (_local_search_improvement solC3 poolC3 ModuleCategory.All none 50).toOption ≠
      (bestImprovementRefine solC3 poolC3 ModuleCategory.All none 50).toOption := by
  decide

theorem partsSum_eq (a : Nat) (ms : List ModuleInfo) :
    partsSum a ms = partsVal a (allParts ms) := rfl

theorem bdLookup_none_iff {b : List (Nat × Nat)} {a : Nat} :
    bdLookup b a = none ↔ a ∉ b.map Prod.fst := by
  induction b with
  | nil => simp [bdLookup]
  | cons e rest ih =>
    obtain ⟨k, v⟩ := e
    simp only [bdLookup, List.map_cons, List.mem_cons]
    by_cases hk : k = a
    · subst hk
      simp
    · rw [if_neg hk, ih]
      constructor
      · rintro h (h' | h')
        · exact hk h'.symm
        · exact h h'
      · exact fun h h' => h (Or.inr h')

theorem bdLookup_isSome_getD {b : List (Nat × Nat)} {a : Nat}
    (h : a ∈ b.map Prod.fst) : bdLookup b a = some ((bdLookup b a).getD 0) := by
  cases hb : bdLookup b a with
  | none => exact absurd h (bdLookup_none_iff.mp hb)
  | some v => rfl

theorem addPart_lookup (b : List (Nat × Nat)) (n v a : Nat) :
    bdLookup (addPart b n v) a =
      if a = n then some ((bdLookup b a).getD 0 + v) else bdLookup b a := by
  induction b with
  | nil =>
    by_cases h : a = n
    · subst h
      simp [addPart, bdLookup]
    · simp only [addPart, bdLookup]
      rw [if_neg (fun hn => h hn.symm), if_neg h]
  | cons e rest ih =>
    obtain ⟨k, w⟩ := e
    by_cases hkn : k = n
    · subst hkn
      by_cases hka : a = k
      · subst hka
        simp [addPart, bdLookup]
      · have hk : ¬k = a := fun h => hka h.symm
        simp only [addPart, if_pos rfl, bdLookup, if_neg hk, if_neg hka]
    · by_cases hka : a = k
      · subst hka
        simp [addPart, if_neg hkn, bdLookup]
      · have hk : ¬k = a := fun h => hka h.symm
        simp only [addPart, if_neg hkn, bdLookup, if_neg hk, ih]

theorem addPart_keys (b : List (Nat × Nat)) (n v : Nat) :
    (addPart b n v).map Prod.fst =
      if n ∈ b.map Prod.fst then b.map Prod.fst else b.map Prod.fst ++ [n] := by
  induction b with
  | nil => simp [addPart]
  | cons e rest ih =>
    obtain ⟨k, w⟩ := e
    by_cases hkn : k = n
    · subst hkn
      simp [addPart]
    · have hnk : ¬n = k := fun h => hkn h.symm
      by_cases hmem : n ∈ rest.map Prod.fst
      · simp only [addPart, if_neg hkn, List.map_cons, ih, if_pos hmem]
        rw [if_pos (List.mem_cons.mpr (Or.inr hmem))]
      · simp only [addPart, if_neg hkn, List.map_cons, ih, if_neg hmem]
        rw [if_neg ?_, List.cons_append]
        intro hc
        rcases List.mem_cons.mp hc with h | h
        · exact hnk h
        · exact hmem h

theorem addPart_keys_mem {b : List (Nat × Nat)} {n v a : Nat} :
    a ∈ (addPart b n v).map Prod.fst ↔ a ∈ b.map Prod.fst ∨ a = n := by
  rw [addPart_keys]
  split
  · rename_i hmem
    constructor
    · exact Or.inl
    · rintro (h | h)
      · exact h
      · exact h ▸ hmem
  · simp

theorem addPart_keys_nodup {b : List (Nat × Nat)} {n v : Nat}
    (h : (b.map Prod.fst).Nodup) : ((addPart b n v).map Prod.fst).Nodup := by
  rw [addPart_keys]
  split
  · exact h
  · rename_i hmem
    refine h.append (List.nodup_singleton n) ?_
    intro a ha hb
    rw [List.mem_singleton] at hb
    subst hb
    exact hmem ha

theorem addPart_lookup_getD (b : List (Nat × Nat)) (n v a : Nat) :
    (bdLookup (addPart b n v) a).getD 0 =
      (bdLookup b a).getD 0 + if a = n then v else 0 := by
  rw [addPart_lookup]
  by_cases h : a = n
  · rw [if_pos h, if_pos h]
    rfl
  · rw [if_neg h, if_neg h, Nat.add_zero]

theorem partsVal_cons (a : Nat) (p : ModulePart) (ps : List ModulePart) :
    partsVal a (p :: ps) = (if p.name = a then p.value else 0) + partsVal a ps := by
  unfold partsVal
  rw [List.filter_cons]
  by_cases h : p.name = a
  · rw [if_pos (by simpa using h), List.map_cons, List.sum_cons, if_pos h]
  · rw [if_neg (by simpa using h), if_neg h, Nat.zero_add]

theorem bdFold_lookup : ∀ (ps : List ModulePart) (b : List (Nat × Nat)) (a : Nat),
    bdLookup (bdFold b ps) a =
      if a ∈ b.map Prod.fst ∨ a ∈ ps.map (·.name) then
        some ((bdLookup b a).getD 0 + partsVal a ps)
      else none
  | [], b, a => by
    simp only [List.map_nil, List.not_mem_nil, or_false]
    by_cases h : a ∈ b.map Prod.fst
    · rw [if_pos h]
      have : partsVal a [] = 0 := rfl
      rw [this, Nat.add_zero]
      exact bdLookup_isSome_getD h
    · rw [if_neg h]
      exact bdLookup_none_iff.mpr h
  | p :: ps, b, a => by
    rw [show bdFold b (p :: ps) = bdFold (addPart b p.name p.value) ps from rfl,
      bdFold_lookup ps (addPart b p.name p.value) a]
    have hiff : (a ∈ (addPart b p.name p.value).map Prod.fst ∨ a ∈ ps.map (·.name)) ↔
        (a ∈ b.map Prod.fst ∨ a ∈ (p :: ps).map (·.name)) := by
      rw [addPart_keys_mem]
      simp only [List.map_cons, List.mem_cons]
      tauto
    have hval : (bdLookup (addPart b p.name p.value) a).getD 0 + partsVal a ps =
        (bdLookup b a).getD 0 + partsVal a (p :: ps) := by
      rw [addPart_lookup_getD, partsVal_cons]
      have hsym : (if a = p.name then p.value else 0) =
          (if p.name = a then p.value else 0) := by
        by_cases h : a = p.name
        · rw [if_pos h, if_pos h.symm]
        · rw [if_neg h, if_neg (fun h' => h h'.symm)]
      rw [hsym, Nat.add_assoc]
    rw [hval]
    exact if_congr hiff rfl rfl

theorem foldl_parts_flatten : ∀ (ms : List ModuleInfo) (b : List (Nat × Nat)),
    ms.foldl (fun b m => m.parts.foldl (fun b p => addPart b p.name p.value) b) b =
      bdFold b ((ms.map (·.parts)).flatten)
  | [], b => rfl
  | m :: ms, b => by
    simp only [List.foldl_cons, List.map_cons, List.flatten_cons]
    rw [foldl_parts_flatten ms _]
    unfold bdFold
    rw [List.foldl_append]

theorem attrBreakdown_eq_bdFold (ms : List ModuleInfo) :
    attrBreakdown ms = bdFold [] (allParts ms) := by
  unfold attrBreakdown allParts
  exact foldl_parts_flatten ms []

theorem attrBreakdown_lookup (ms : List ModuleInfo) (a : Nat) :
    bdLookup (attrBreakdown ms) a =
      if a ∈ (allParts ms).map (·.name) then some (partsSum a ms) else none := by
  rw [attrBreakdown_eq_bdFold, bdFold_lookup (allParts ms) [] a]
  simp only [List.map_nil, List.not_mem_nil, false_or]
  have h0 : (bdLookup [] a).getD 0 = 0 := rfl
  rw [h0, Nat.zero_add, partsSum_eq]

theorem bdFold_keys_nodup : ∀ (ps : List ModulePart) {b : List (Nat × Nat)},
    (b.map Prod.fst).Nodup → ((bdFold b ps).map Prod.fst).Nodup
  | [], _, h => h
  | _ :: ps, _, h => bdFold_keys_nodup ps (addPart_keys_nodup h)

theorem attrBreakdown_keys_nodup (ms : List ModuleInfo) :
    ((attrBreakdown ms).map Prod.fst).Nodup := by
  rw [attrBreakdown_eq_bdFold]
  exact bdFold_keys_nodup _ (by simp)

theorem bdLookup_some_mem : ∀ {b : List (Nat × Nat)} {a v : Nat},
    bdLookup b a = some v → (a, v) ∈ b
  | [], a, v, h => by simp [bdLookup] at h
  | (k, w) :: rest, a, v, h => by
    simp only [bdLookup] at h
    by_cases hk : k = a
    · rw [if_pos hk] at h
      injection h with hv
      subst hk
      subst hv
      exact List.mem_cons_self _ _
    · rw [if_neg hk] at h
      exact List.mem_cons_of_mem _ (bdLookup_some_mem h)

theorem mem_lookup_of_nodup : ∀ {b : List (Nat × Nat)},
    (b.map Prod.fst).Nodup → ∀ {e : Nat × Nat}, e ∈ b → bdLookup b e.1 = some e.2
  | [], _, e, he => by simp at he
  | (k, w) :: rest, hnd, e, he => by
    rw [List.map_cons] at hnd
    have hnd' := List.nodup_cons.mp hnd
    rcases List.mem_cons.mp he with h | h
    · subst h
      simp [bdLookup]
    · have hk : k ≠ e.1 := by
        intro hk
        apply hnd'.1
        rw [show (k, w).1 = k from rfl, hk]
        exact List.mem_map_of_mem Prod.fst h
      simp only [bdLookup, if_neg hk]
      exact mem_lookup_of_nodup hnd'.2 h

theorem lookup_decomp : ∀ {b : List (Nat × Nat)} {a v : Nat},
    bdLookup b a = some v → ∃ l r, b = l ++ (a, v) :: r ∧ a ∉ l.map Prod.fst
  | [], a, v, h => by simp [bdLookup] at h
  | (k, w) :: rest, a, v, h => by
    simp only [bdLookup] at h
    by_cases hk : k = a
    · rw [if_pos hk] at h
      injection h with hv
      exact ⟨[], rest, by rw [hk, hv]; rfl, by simp⟩
    · rw [if_neg hk] at h
      obtain ⟨l, r, hb, hnl⟩ := lookup_decomp h
      refine ⟨(k, w) :: l, r, by rw [hb]; rfl, ?_⟩
      simp only [List.map_cons, List.mem_cons]
      rintro (h' | h')
      · exact hk h'.symm
      · exact hnl h'

theorem bdLookup_skip_middle {a k v : Nat} (hak : a ≠ k) :
    ∀ (l r : List (Nat × Nat)), bdLookup (l ++ (k, v) :: r) a = bdLookup (l ++ r) a
  | [], r => by
    simp only [List.nil_append, bdLookup]
    rw [if_neg (fun h => hak h.symm)]
  | (k', w') :: l, r => by
    simp only [List.cons_append, bdLookup, List.append_eq]
    by_cases h : k' = a
    · rw [if_pos h, if_pos h]
    · rw [if_neg h, if_neg h, bdLookup_skip_middle hak l r]

theorem lookup_eq_perm : ∀ {b1 b2 : List (Nat × Nat)},
    (b1.map Prod.fst).Nodup → (b2.map Prod.fst).Nodup →
    (∀ a, bdLookup b1 a = bdLookup b2 a) → b1.Perm b2
  | [], b2, _, _, h => by
    cases b2 with
    | nil => exact List.Perm.refl []
    | cons e rest =>
      obtain ⟨k, w⟩ := e
      have hk := h k
      simp [bdLookup] at hk
  | (k, v) :: rest, b2, h1, h2, h => by
    have hk : bdLookup b2 k = some v := by
      rw [← h k]
      simp [bdLookup]
    obtain ⟨l, r, hb2, hnl⟩ := lookup_decomp hk
    subst hb2
    rw [List.map_cons] at h1
    have h1' := List.nodup_cons.mp h1
    have h2' : k ∉ (l ++ r).map Prod.fst ∧ ((l ++ r).map Prod.fst).Nodup := by
      have hmid : ((k, v) :: (l ++ r)).map Prod.fst
          = k :: (l ++ r).map Prod.fst := rfl
      have h2a : (((k, v) :: (l ++ r)).map Prod.fst).Nodup := by
        rw [hmid, List.map_append]
        have := h2
        rw [List.map_append, List.map_cons] at this
        exact List.nodup_middle.mp this
      rw [hmid] at h2a
      exact ⟨(List.nodup_cons.mp h2a).1, (List.nodup_cons.mp h2a).2⟩
    have hrest : ∀ a, bdLookup rest a = bdLookup (l ++ r) a := by
      intro a
      by_cases ha : a = k
      · subst ha
        rw [bdLookup_none_iff.mpr h1'.1, bdLookup_none_iff.mpr h2'.1]
      · have hha := h a
        simp only [bdLookup, if_neg (fun hk' : k = a => ha hk'.symm)] at hha
        rw [hha, bdLookup_skip_middle ha l r]
    have hperm := lookup_eq_perm h1'.2 h2'.2 hrest
    exact (hperm.cons (k, v)).trans List.perm_middle.symm

theorem attrBreakdown_perm {ms1 ms2 : List ModuleInfo} (h : ms1.Perm ms2) :
    (attrBreakdown ms1).Perm (attrBreakdown ms2) := by
  apply lookup_eq_perm (attrBreakdown_keys_nodup ms1) (attrBreakdown_keys_nodup ms2)
  intro a
  rw [attrBreakdown_lookup, attrBreakdown_lookup]
  have hparts : (allParts ms1).Perm (allParts ms2) := by
    unfold allParts
    exact (h.map (·.parts)).flatten
  have hnames := hparts.map (·.name)
  have hval : partsSum a ms1 = partsSum a ms2 := by
    rw [partsSum_eq, partsSum_eq]
    unfold partsVal
    exact ((hparts.filter _).map _).sum_eq
  by_cases hm : a ∈ (allParts ms1).map (·.name)
  · rw [if_pos hm, if_pos (hnames.mem_iff.mp hm), hval]
  · rw [if_neg hm, if_neg (fun h' => hm (hnames.mem_iff.mpr h'))]

theorem bdLookup_eq_of_perm {b1 b2 : List (Nat × Nat)}
    (hnd : (b1.map Prod.fst).Nodup) (h : b1.Perm b2) (a : Nat) :
    bdLookup b1 a = bdLookup b2 a := by
  have hnd2 : (b2.map Prod.fst).Nodup := ((h.map Prod.fst).nodup_iff).mp hnd
  cases hb : bdLookup b1 a with
  | none =>
    have hnm := bdLookup_none_iff.mp hb
    exact (bdLookup_none_iff.mpr (fun hm => hnm ((h.map Prod.fst).mem_iff.mpr hm))).symm
  | some v =>
    have hmem : (a, v) ∈ b2 := h.mem_iff.mp (bdLookup_some_mem hb)
    exact (mem_lookup_of_nodup hnd2 hmem).symm

/-- C6: `calculate_combat_power` is a pure function and is
order-independent: for permuted module lists the scores are equal and the
breakdown dictionaries are equal as dictionaries (same lookup at every
attribute; the entry lists are permutations of each other). -/
theorem c6_combat_power_order_independent (cfg : PowerConfig)
    (ms1 ms2 : List ModuleInfo) (h : ms1.Perm ms2) :
    (calculate_combat_power cfg ms1).1 = (calculate_combat_power cfg ms2).1 ∧
    (∀ a, bdLookup (calculate_combat_power cfg ms1).2 a =
      bdLookup (calculate_combat_power cfg ms2).2 a) ∧
    ((calculate_combat_power cfg ms1).2).Perm ((calculate_combat_power cfg ms2).2) := by
  have hb : (attrBreakdown ms1).Perm (attrBreakdown ms2) := attrBreakdown_perm h
  unfold calculate_combat_power
  dsimp only
  refine ⟨?_, ?_, hb⟩
  · rw [((hb.map (·.2)).sum_eq), ((hb.map (fun e => cpContrib cfg e.1 e.2)).sum_eq)]
  · exact bdLookup_eq_of_perm (attrBreakdown_keys_nodup ms1) hb

theorem c6_permutation_witness :
    pool4.Perm pool4.reverse ∧
    (calculate_combat_power pcfgDemo pool4).1 =
      (calculate_combat_power pcfgDemo pool4.reverse).1 :=
  ⟨by decide, (c6_combat_power_order_independent pcfgDemo pool4
    pool4.reverse (by decide)).1⟩

theorem tierBonus_mono {v w : Nat} (h : v ≤ w) : tierBonus v ≤ tierBonus w := by
  unfold tierBonus
  split_ifs <;> omega

theorem filter_le_count_mono {l : List Nat} {v w : Nat} (h : v ≤ w) :
    (l.filter (fun t => t ≤ v)).length ≤ (l.filter (fun t => t ≤ w)).length := by
  induction l with
  | nil => simp
  | cons x xs ih =>
    simp only [List.filter_cons]
    by_cases hx : x ≤ v
    · rw [if_pos (by simpa using hx), if_pos (by simpa using le_trans hx h)]
      simpa using ih
    · by_cases hx2 : x ≤ w
      · rw [if_neg (by simpa using hx), if_pos (by simpa using hx2)]
        simp only [List.length_cons]
        omega
      · rw [if_neg (by simpa using hx), if_neg (by simpa using hx2)]
        exact ih

theorem cpContrib_mono (cfg : PowerConfig) (hm : MonoPowerConfig cfg) (a : Nat)
    {v w : Nat} (h : v ≤ w) : cpContrib cfg a v ≤ cpContrib cfg a w := by
  unfold cpContrib
  dsimp only
  have hL : (cfg.thresholds.filter (fun t => t ≤ v)).length ≤
      (cfg.thresholds.filter (fun t => t ≤ w)).length := filter_le_count_mono h
  by_cases h0 : 0 < (cfg.thresholds.filter (fun t => t ≤ v)).length
  · rw [if_pos h0, if_pos (lt_of_lt_of_le h0 hL)]
    cases hsp : cfg.attrTypeSpecial a
    · rw [if_neg (by decide), if_neg (by decide)]
      exact hm.1 hL
    · rw [if_pos rfl, if_pos rfl]
      exact hm.2 hL
  · rw [if_neg h0]
    exact Nat.zero_le _

theorem list_decomp {α : Type} (l : List α) (i : Nat) (h : i < l.length) :
    l = l.take i ++ l[i] :: l.drop (i + 1) := by
  conv_lhs => rw [← List.take_append_drop i l]
  rw [List.drop_eq_getElem_cons h]

theorem partsVal_append (a : Nat) (l r : List ModulePart) :
    partsVal a (l ++ r) = partsVal a l + partsVal a r := by
  unfold partsVal
  rw [List.filter_append, List.map_append, List.sum_append]

theorem partsSum_append (a : Nat) (l r : List ModuleInfo) :
    partsSum a (l ++ r) = partsSum a l + partsSum a r := by
  rw [partsSum_eq, partsSum_eq, partsSum_eq]
  unfold allParts
  rw [List.map_append, List.flatten_append, partsVal_append]

theorem partsSum_cons (a : Nat) (m : ModuleInfo) (ms : List ModuleInfo) :
    partsSum a (m :: ms) = partsVal a m.parts + partsSum a ms := by
  rw [partsSum_eq, partsSum_eq]
  unfold allParts
  rw [List.map_cons, List.flatten_cons, partsVal_append]

theorem bumpPart_partsSum (ms : List ModuleInfo) (i j d : Nat)
    (hi : i < ms.length) (hj : j < (ms.getD i default).parts.length) :
    (partsSum ((ms.getD i default).parts.getD j default).name (bumpPart ms i j d) =
      partsSum ((ms.getD i default).parts.getD j default).name ms + d) ∧
    ∀ a, a ≠ ((ms.getD i default).parts.getD j default).name →
      partsSum a (bumpPart ms i j d) = partsSum a ms := by
  set m := ms.getD i default with hm
  set p := m.parts.getD j default with hp
  have hbump : bumpPart ms i j d =
      ms.set i { m with parts := m.parts.set j { p with value := p.value + d } } := rfl
  have hms : ms = ms.take i ++ m :: ms.drop (i + 1) := by
    rw [hm, List.getD_eq_getElem _ _ hi]
    exact list_decomp ms i hi
  have hparts : m.parts = m.parts.take j ++ p :: m.parts.drop (j + 1) := by
    rw [hp, List.getD_eq_getElem _ _ hj]
    exact list_decomp m.parts j hj
  have hset : ms.set i { m with parts := m.parts.set j { p with value := p.value + d } } =
      ms.take i ++ { m with parts := m.parts.set j { p with value := p.value + d } } ::
        ms.drop (i + 1) :=
    List.set_eq_take_cons_drop _ hi
  have hpset : m.parts.set j { p with value := p.value + d } =
      m.parts.take j ++ { p with value := p.value + d } :: m.parts.drop (j + 1) :=
    List.set_eq_take_cons_drop _ hj
  have hval : ∀ a, partsVal a (m.parts.set j { p with value := p.value + d }) =
      partsVal a (m.parts.take j) +
        ((if p.name = a then p.value + d else 0) + partsVal a (m.parts.drop (j + 1))) := by
    intro a
    rw [hpset, partsVal_append, partsVal_cons]
  have hvalm : ∀ a, partsVal a m.parts =
      partsVal a (m.parts.take j) +
        ((if p.name = a then p.value else 0) + partsVal a (m.parts.drop (j + 1))) := by
    intro a
    conv_lhs => rw [hparts]
    rw [partsVal_append, partsVal_cons]
  constructor
  · rw [hbump, hset, partsSum_append, partsSum_cons]
    conv_rhs => rw [hms]
    rw [partsSum_append, partsSum_cons, hval, hvalm, if_pos rfl, if_pos rfl]
    omega
  · intro a ha
    rw [hbump, hset, partsSum_append, partsSum_cons]
    conv_rhs => rw [hms]
    rw [partsSum_append, partsSum_cons, hval, hvalm,
      if_neg (fun h => ha h.symm), if_neg (fun h => ha h.symm)]

theorem pcfgDemo_mono : MonoPowerConfig pcfgDemo := by
  constructor
  · intro x y h
    show x * 10 ≤ y * 10
    exact Nat.mul_le_mul_right 10 h
  · intro x y h
    show x * 20 ≤ y * 20
    exact Nat.mul_le_mul_right 20 h

/-- C7: increasing one part's value while holding all else fixed never
decreases that attribute's tier contribution: the fitness tier bonus
`tierBonus` and the combat-power threshold contribution `cpContrib` (under
the spec-modelled monotone power tables) are monotone in the attribute's
accumulated value, and bumping part `j` of module `i` by `d` raises
exactly that part's attribute total by `d`, leaving every other attribute
total unchanged. -/
theorem c7_tier_contribution_monotone (cfg : PowerConfig)
    (hm : MonoPowerConfig cfg) :
    (∀ v w : Nat, v ≤ w → tierBonus v ≤ tierBonus w) ∧
    (∀ (a v w : Nat), v ≤ w → cpContrib cfg a v ≤ cpContrib cfg a w) ∧
    ∀ (ms : List ModuleInfo) (i j d : Nat), i < ms.length →
      j < (ms.getD i default).parts.length →
      (partsSum ((ms.getD i default).parts.getD j default).name (bumpPart ms i j d) =
        partsSum ((ms.getD i default).parts.getD j default).name ms + d) ∧
      ∀ a, a ≠ ((ms.getD i default).parts.getD j default).name →
        partsSum a (bumpPart ms i j d) = partsSum a ms := by
  refine ⟨fun v w h => tierBonus_mono h, fun a v w h => cpContrib_mono cfg hm a h,
    fun ms i j d hi hj => bumpPart_partsSum ms i j d hi hj⟩

theorem c7_monotonicity_witness :
    MonoPowerConfig pcfgDemo ∧
    ((∀ v w : Nat, v ≤ w → tierBonus v ≤ tierBonus w) ∧
    (∀ (a v w : Nat), v ≤ w → cpContrib pcfgDemo a v ≤ cpContrib pcfgDemo a w) ∧
    ∀ (ms : List ModuleInfo) (i j d : Nat), i < ms.length →
      j < (ms.getD i default).parts.length →
      (partsSum ((ms.getD i default).parts.getD j default).name (bumpPart ms i j d) =
        partsSum ((ms.getD i default).parts.getD j default).name ms + d) ∧
      ∀ a, a ≠ ((ms.getD i default).parts.getD j default).name →
        partsSum a (bumpPart ms i j d) = partsSum a ms) :=
  ⟨pcfgDemo_mono, c7_tier_contribution_monotone pcfgDemo pcfgDemo_mono⟩

theorem calculate_fitness_nonneg (modules : List ModuleInfo)
    (category : ModuleCategory) (pri : Option (List Nat)) :
    0 ≤ calculate_fitness modules category pri := by
  unfold calculate_fitness
  split
  · exact le_refl 0
  · dsimp only
    exact clampScore_nonneg _

theorem addPart_length_le (b : List (Nat × Nat)) (n v : Nat) :
    (addPart b n v).length ≤ b.length + 1 := by
  induction b with
  | nil => simp [addPart]
  | cons e rest ih =>
    obtain ⟨k, w⟩ := e
    simp only [addPart]
    split
    · simp
    · simp only [List.length_cons]
      omega

theorem addPart_values_sum (b : List (Nat × Nat)) (n v : Nat) :
    ((addPart b n v).map (·.2)).sum = (b.map (·.2)).sum + v := by
  induction b with
  | nil => simp [addPart]
  | cons e rest ih =>
    obtain ⟨k, w⟩ := e
    simp only [addPart]
    split
    · simp only [List.map_cons, List.sum_cons]
      omega
    · simp only [List.map_cons, List.sum_cons, ih]
      omega

theorem bdFold_length_le : ∀ (ps : List ModulePart) (b : List (Nat × Nat)),
    (bdFold b ps).length ≤ b.length + ps.length
  | [], b => le_refl _
  | p :: ps, b => by
    have h1 := bdFold_length_le ps (addPart b p.name p.value)
    have h2 := addPart_length_le b p.name p.value
    have hstep : bdFold b (p :: ps) = bdFold (addPart b p.name p.value) ps := rfl
    rw [hstep]
    simp only [List.length_cons]
    omega

theorem bdFold_values_sum : ∀ (ps : List ModulePart) (b : List (Nat × Nat)),
    ((bdFold b ps).map (·.2)).sum = (b.map (·.2)).sum + (ps.map (·.value)).sum
  | [], b => by simp [bdFold]
  | p :: ps, b => by
    have h1 := bdFold_values_sum ps (addPart b p.name p.value)
    have hstep : bdFold b (p :: ps) = bdFold (addPart b p.name p.value) ps := rfl
    rw [hstep, h1, addPart_values_sum]
    simp only [List.map_cons, List.sum_cons]
    omega

theorem attrBreakdown_length_le (ms : List ModuleInfo) :
    (attrBreakdown ms).length ≤ (allParts ms).length := by
  rw [attrBreakdown_eq_bdFold]
  have := bdFold_length_le (allParts ms) []
  simpa using this

theorem attrBreakdown_values_sum (ms : List ModuleInfo) :
    ((attrBreakdown ms).map (·.2)).sum = ((allParts ms).map (·.value)).sum := by
  rw [attrBreakdown_eq_bdFold]
  have := bdFold_values_sum (allParts ms) []
  simpa using this

theorem tierBonus_le (v : Nat) : tierBonus v ≤ 1000 + 20 * v := by
  unfold tierBonus
  split_ifs <;> omega

theorem sum_affine_bound (b : List (Nat × Nat)) :
    ((b.map (fun e => tierBonus e.2)).sum : Nat) ≤
      1000 * b.length + 20 * (b.map (·.2)).sum := by
  induction b with
  | nil => simp
  | cons e rest ih =>
    simp only [List.map_cons, List.sum_cons, List.length_cons]
    have := tierBonus_le e.2
    omega

theorem fitness_All_none_le (ms : List ModuleInfo) :
    calculate_fitness ms ModuleCategory.All none ≤
      deci (1000 * (allParts ms).length + 20 * ((allParts ms).map (·.value)).sum) +
        (((((allParts ms).map (·.value)).sum : Nat)) : Int) := by
  have hB0 : (0 : Int) ≤
      deci (1000 * (allParts ms).length + 20 * ((allParts ms).map (·.value)).sum) +
        (((((allParts ms).map (·.value)).sum : Nat)) : Int) := by
    unfold deci
    omega
  unfold calculate_fitness
  split
  · exact hB0
  · dsimp only
    apply clampScore_le ?_ hB0
    have haff : (attrBreakdown ms).filter
        (fun e => e.1 ∈ (([] : List Nat))) = [] := by
      simp
    rw [haff]
    simp only [List.map_nil, List.sum_nil]
    have hthr := sum_affine_bound (attrBreakdown ms)
    have hlen := attrBreakdown_length_le ms
    have hsum := attrBreakdown_values_sum ms
    unfold deci
    omega

theorem pool8_module_facts :
    ∀ m ∈ pool8, m.parts.length = 2 ∧ (m.parts.map (·.value)).sum = 12 := by
  decide

theorem allParts_facts_pool8 : ∀ (ms : List ModuleInfo), (∀ m ∈ ms, m ∈ pool8) →
    (allParts ms).length = 2 * ms.length ∧
      ((allParts ms).map (·.value)).sum = 12 * ms.length := by
  intro ms
  induction ms with
  | nil =>
    intro _
    constructor <;> rfl
  | cons m ms ih =>
    intro h
    have hm := pool8_module_facts m (h m (List.mem_cons_self m ms))
    have hms := ih (fun x hx => h x (List.mem_cons_of_mem m hx))
    have hcons : allParts (m :: ms) = m.parts ++ allParts ms := by
      unfold allParts
      rw [List.map_cons, List.flatten_cons]
    rw [hcons]
    constructor
    · rw [List.length_append, hm.1, hms.1, List.length_cons]
      omega
    · rw [List.map_append, List.sum_append, hm.2, hms.2, List.length_cons]
      omega

theorem fitness_pool8_le (ms : List ModuleInfo) (hlen : ms.length = 4)
    (hmem : ∀ m ∈ ms, m ∈ pool8) :
    calculate_fitness ms ModuleCategory.All none ≤ fitnessBound8 := by
  have h := fitness_All_none_le ms
  obtain ⟨h1, h2⟩ := allParts_facts_pool8 ms hmem
  rw [hlen] at h1 h2
  rw [h1, h2] at h
  exact le_trans h (by decide)

theorem lsTop_ok (category : ModuleCategory) (pri : Option (List Nat))
    {pool : List ModuleInfo} (B : Int)
    (hB : ∀ ms : List ModuleInfo, ms.length = 4 → (∀ m ∈ ms, m ∈ pool) →
      calculate_fitness ms category pri ≤ B)
    {fuel : Nat} (hfuel : B.toNat < fuel) :
    ∀ (k : Nat) (l : List ModuleSolution),
      (∀ s ∈ l, SolWf pool s ∧
        s.optimization_score = calculate_fitness s.modules category pri) →
      k ≤ l.length →
      ∃ res, lsTop category pri pool fuel k l = .ok res ∧
        res.length = l.length ∧ ∀ s ∈ res, SolWf pool s
  | 0, l, hl, _ => ⟨l, rfl, rfl, fun s hs => (hl s hs).1⟩
  | k + 1, [], _, hk => by simp at hk
  | k + 1, x :: xs, hl, hk => by
    have hx := hl x (List.mem_cons_self x xs)
    have hscore : x.optimization_score ≤ B := by
      rw [hx.2]
      exact hB x.modules hx.1.1 hx.1.2.2.1
    have h0' : 0 ≤ x.optimization_score := by
      rw [hx.2]
      exact calculate_fitness_nonneg _ _ _
    have hfx : (B - x.optimization_score).toNat < fuel := by omega
    obtain ⟨x', hx', hwx'⟩ := local_search_ok category pri B hB fuel x hx.1 hscore hfx
    obtain ⟨xs', hxs', hlen', hwxs'⟩ := lsTop_ok category pri B hB hfuel k xs
      (fun s hs => hl s (List.mem_cons_of_mem x hs))
      (by simp only [List.length_cons] at hk; omega)
    refine ⟨x' :: xs', ?_, ?_, ?_⟩
    · show (do
        let a ← _local_search category pri pool fuel x
        let b ← lsTop category pri pool fuel k xs
        Except.ok (a :: b)) = Except.ok (x' :: xs')
      rw [hx', except_bind_ok, hxs', except_bind_ok]
    · simp only [List.length_cons, hlen']
    · intro s hs
      rcases List.mem_cons.mp hs with h | h
      · exact h ▸ hwx'
      · exact hwxs' s h

theorem fillNextGen_step (g : Sampler) (p : GaParams) (category : ModuleCategory)
    (pri : Option (List Nat)) (pool : List ModuleInfo)
    (population : List ModuleSolution) (fuel : Nat) (ng : List ModuleSolution)
    (c : Nat) (hts : ¬population.length < p.tournament_size)
    (hfull : ¬p.population_size ≤ ng.length) :
    fillNextGen g p category pri pool population (fuel + 1) ng c =
      fillNextGen g p category pri pool population fuel
        (ng ++ [(fillStep g p pool population c).1.1,
          (fillStep g p pool population c).1.2])
        (fillStep g p pool population c).2 := by
  conv_lhs => rw [fillNextGen]
  rw [if_neg hfull]
  unfold _selection sample
  rw [if_neg hts]
  dsimp only
  rw [if_neg hts]
  dsimp only
  unfold fillStep selPick
  dsimp only

theorem fillStep_wf {g : Sampler} {p : GaParams} {pool : List ModuleInfo}
    {population : List ModuleSolution}
    (h5 : 0 < p.tournament_size) (hts : p.tournament_size ≤ population.length)
    (hpopwf : ∀ s ∈ population, SolWf pool s) (c : Nat) :
    SolWf pool (fillStep g p pool population c).1.1 ∧
      SolWf pool (fillStep g p pool population c).1.2 := by
  have hmax : ∀ c0, maxByScore (sampleAux g p.tournament_size population c0).1
      ∈ population := by
    intro c0
    have hlen := sampleAux_length g p.tournament_size population c0
    have hne : (sampleAux g p.tournament_size population c0).1 ≠ [] := by
      intro hemp
      rw [hemp] at hlen
      simp only [List.length_nil] at hlen
      have := Nat.min_eq_left hts
      omega
    exact sampleAux_mem (maxByScore_mem hne)
  unfold fillStep selPick
  dsimp only
  have hp1 := hpopwf _ (hmax c)
  have hp2 := hpopwf _ (hmax (sampleAux g p.tournament_size population c).2)
  have hcr := crossover_children_wf (g := g) (p := p)
    (c := (sampleAux g p.tournament_size population
      (sampleAux g p.tournament_size population c).2).2) hp1 hp2
  exact ⟨mutate_wf hcr.1, mutate_wf hcr.2⟩

theorem fillNextGen_ok {g : Sampler} {p : GaParams} {category : ModuleCategory}
    {pri : Option (List Nat)} {pool : List ModuleInfo}
    {population : List ModuleSolution}
    (h5 : 0 < p.tournament_size) (hts : p.tournament_size ≤ population.length)
    (hpopwf : ∀ s ∈ population, SolWf pool s) :
    ∀ (fuel : Nat) (ng : List ModuleSolution) (c : Nat),
      p.population_size ≤ ng.length + 2 * fuel →
      (∀ s ∈ ng, SolWf pool s) →
      ∃ res, fillNextGen g p category pri pool population fuel ng c = .ok res ∧
        (∀ s ∈ res.1, SolWf pool s) ∧ p.population_size ≤ res.1.length
  | 0, ng, c, hle, hng => by
    unfold fillNextGen
    rw [if_pos (by omega)]
    exact ⟨(ng, c), rfl, hng, by show p.population_size ≤ ng.length; omega⟩
  | fuel + 1, ng, c, hle, hng => by
    by_cases hfull : p.population_size ≤ ng.length
    · unfold fillNextGen
      rw [if_pos hfull]
      exact ⟨(ng, c), rfl, hng, hfull⟩
    · rw [fillNextGen_step g p category pri pool population fuel ng c
        (Nat.not_lt.mpr hts) hfull]
      obtain ⟨hw1, hw2⟩ := fillStep_wf h5 hts hpopwf (g := g) (p := p) c
      apply fillNextGen_ok h5 hts hpopwf fuel _ _ ?_ ?_
      · simp only [List.length_append, List.length_cons, List.length_nil]
        omega
      · intro s hs
        rcases List.mem_append.mp hs with h | h
        · exact hng s h
        · simp only [List.mem_cons, List.not_mem_nil, or_false] at h
          rcases h with h | h
          · exact h ▸ hw1
          · exact h ▸ hw2

theorem runGeneration_ok (g : Sampler) (category : ModuleCategory)
    (pri : Option (List Nat)) {pool : List ModuleInfo} (B : Int)
    (hB : ∀ ms : List ModuleInfo, ms.length = 4 → (∀ m ∈ ms, m ∈ pool) →
      calculate_fitness ms category pri ≤ B)
    {population : List ModuleSolution} {c : Nat} {fuel : Nat}
    (hwf : ∀ s ∈ population, SolWf pool s) (h5 : 5 ≤ population.length)
    (hfuel1 : B.toNat < fuel) (hfuel2 : 100 ≤ 2 * fuel) :
    ∃ res, runGeneration g gaParams category pri pool fuel population c = .ok res ∧
      (∀ s ∈ res.1, SolWf pool s) ∧ 100 ≤ res.1.length := by
  have hwfs : ∀ s ∈ sortDescBy (·.optimization_score) population, SolWf pool s :=
    fun s hs => hwf s (sortDescBy_mem.mp hs)
  have hlens : (sortDescBy (·.optimization_score) population).length =
      population.length := sortDescBy_length _ _
  have hts : gaParams.tournament_size ≤
      (sortDescBy (·.optimization_score) population).length := by
    rw [hlens]
    show 5 ≤ population.length
    exact h5
  have hwfe : ∀ s ∈ (sortDescBy (·.optimization_score) population).take
      (intOfRate gaParams.population_size gaParams.elitism_rate), SolWf pool s :=
    fun s hs => hwfs s (List.mem_of_mem_take hs)
  obtain ⟨⟨ng1, c1⟩, hfres, hfwf, hflen⟩ :=
    fillNextGen_ok (by decide) hts hwfs fuel
      ((sortDescBy (·.optimization_score) population).take
        (intOfRate gaParams.population_size gaParams.elitism_rate)) c
      (by
        rw [show gaParams.population_size = 100 from rfl]
        omega)
      hwfe
  rw [show gaParams.population_size = 100 from rfl] at hflen
  have hflen1 : 100 ≤ ng1.length := hflen
  have hrwf : ∀ s ∈ ng1.map (fun s =>
      { s with optimization_score := calculate_fitness s.modules category pri }),
      SolWf pool s ∧
        s.optimization_score = calculate_fitness s.modules category pri := by
    intro s hs
    rcases List.mem_map.mp hs with ⟨s0, hs0, rfl⟩
    exact ⟨solWf_withScore (hfwf s0 hs0) _, rfl⟩
  have hswf : ∀ s ∈ sortDescBy (·.optimization_score) (ng1.map (fun s =>
      { s with optimization_score := calculate_fitness s.modules category pri })),
      SolWf pool s ∧
        s.optimization_score = calculate_fitness s.modules category pri :=
    fun s hs => hrwf s (sortDescBy_mem.mp hs)
  have hslen : (sortDescBy (·.optimization_score) (ng1.map (fun s =>
      { s with optimization_score := calculate_fitness s.modules category pri }))).length
      = ng1.length := by
    rw [sortDescBy_length, List.length_map]
  obtain ⟨lres, hlres, hllen, hlwf⟩ := lsTop_ok category pri B hB hfuel1
    (intOfRate gaParams.population_size gaParams.local_search_rate)
    (sortDescBy (·.optimization_score) (ng1.map (fun s =>
      { s with optimization_score := calculate_fitness s.modules category pri })))
    hswf
    (by
      rw [hslen, show intOfRate gaParams.population_size gaParams.local_search_rate = 30
        from rfl]
      omega)
  refine ⟨(lres, c1), ?_, hlwf, ?_⟩
  · unfold runGeneration
    dsimp only
    rw [hfres, except_bind_ok]
    dsimp only
    rw [hlres, except_bind_ok]
  · show 100 ≤ lres.length
    rw [hllen, hslen]
    omega

theorem genLoop_ok (g : Sampler) (category : ModuleCategory)
    (pri : Option (List Nat)) {pool : List ModuleInfo} (B : Int)
    (hB : ∀ ms : List ModuleInfo, ms.length = 4 → (∀ m ∈ ms, m ∈ pool) →
      calculate_fitness ms category pri ≤ B)
    (fuel : Nat) (hfuel1 : B.toNat < fuel) (hfuel2 : 100 ≤ 2 * fuel) :
    ∀ (gens : Nat) (population : List ModuleSolution) (c : Nat),
      (∀ s ∈ population, SolWf pool s) → 5 ≤ population.length →
      ∃ res, genLoop g gaParams category pri pool fuel gens population c = .ok res ∧
        (∀ s ∈ res.1, SolWf pool s) ∧ 5 ≤ res.1.length
  | 0, population, c, hwf, h5 => ⟨(population, c), rfl, hwf, h5⟩
  | gens + 1, population, c, hwf, h5 => by
    obtain ⟨⟨ng, c1⟩, hrun, hwf1, hlen1⟩ :=
      runGeneration_ok g category pri B hB hwf h5 hfuel1 hfuel2 (c := c)
    have hlen1' : 100 ≤ ng.length := hlen1
    obtain ⟨res, hloop, hwf2, hlen2⟩ := genLoop_ok g category pri B hB fuel hfuel1
      hfuel2 gens ng c1 hwf1 (by omega)
    refine ⟨res, ?_, hwf2, hlen2⟩
    unfold genLoop
    rw [hrun, except_bind_ok]
    exact hloop

theorem init_pool8_succeeds :
    (match _initialize_population gTab ModuleCategory.All none pool8
        gaParams.population_size FUEL 0 with
      | .ok (pop, _) => pop.length == 5
      | .error _ => false) = true := by
  decide

theorem init_pool8_ok : ∃ pop c,
    _initialize_population gTab ModuleCategory.All none pool8
      gaParams.population_size FUEL 0 = .ok (pop, c) ∧ pop.length = 5 := by
  have h := init_pool8_succeeds
  cases hres : _initialize_population gTab ModuleCategory.All none pool8
      gaParams.population_size FUEL 0 with
  | error e =>
    rw [hres] at h
    simp at h
  | ok pc =>
    obtain ⟨pop, c⟩ := pc
    rw [hres] at h
    exact ⟨pop, c, rfl, by simpa using h⟩

theorem pool8_uuid_nodup : (pool8.map (·.uuid)).Nodup := by decide

theorem campaign_pool8_ok :
    ∃ r, run_single_ga_campaign gTab pool8 ModuleCategory.All none gaParams FUEL =
      .ok r ∧ r ≠ [] := by
  obtain ⟨pop, c, hres, hlen⟩ := init_pool8_ok
  have hwfpop : ∀ s ∈ pop, SolWf pool8 s :=
    _initialize_population_wf pool8_uuid_nodup hres
  obtain ⟨⟨fp, fc⟩, hloop, hwf2, hlen2⟩ :=
    genLoop_ok gTab ModuleCategory.All none fitnessBound8
      (fun ms h1 h2 => fitness_pool8_le ms h1 h2) FUEL (by decide) (by decide)
      gaParams.generations pop c hwfpop (by omega)
  refine ⟨sortDescBy (·.optimization_score) fp, ?_, ?_⟩
  · unfold run_single_ga_campaign
    rw [hres, except_bind_ok]
    dsimp only
    rw [if_neg ?_, hloop, except_bind_ok]
    intro hemp
    rw [List.isEmpty_iff] at hemp
    rw [hemp] at hlen
    simp at hlen
  · intro hemp
    have hl := sortDescBy_length (fun s : ModuleSolution => s.optimization_score) fp
    rw [hemp] at hl
    simp only [List.length_nil] at hl
    have : 5 ≤ fp.length := hlen2
    omega

theorem collectCampaigns_succ (g : Nat → Sampler) (pool : List ModuleInfo)
    (category : ModuleCategory) (pri : Option (List Nat)) (fuel n : Nat) :
    collectCampaigns g pool category pri fuel (n + 1) = (do
      let prev ← collectCampaigns g pool category pri fuel n
      match run_single_ga_campaign (g n) pool category pri gaParams fuel with
      | .ok r => .ok (prev ++ r)
      | .error .valueError => .ok prev
      | .error .fuelExhausted => .error .fuelExhausted) := rfl

theorem collectCampaigns_one (g : Nat → Sampler) (pool : List ModuleInfo)
    (category : ModuleCategory) (pri : Option (List Nat)) (fuel : Nat)
    {r : List ModuleSolution}
    (h : run_single_ga_campaign (g 0) pool category pri gaParams fuel = .ok r) :
    collectCampaigns g pool category pri fuel 1 = .ok r := by
  rw [collectCampaigns_succ g pool category pri fuel 0,
    show collectCampaigns g pool category pri fuel 0 = .ok [] from rfl,
    except_bind_ok, h]
  rfl

theorem collect_pool8_ok :
    ∃ r, collectCampaigns (fun _ => gTab) pool8 ModuleCategory.All none FUEL 1 =
      .ok r ∧ r ≠ [] := by
  obtain ⟨r, hr, hne⟩ := campaign_pool8_ok
  exact ⟨r, collectCampaigns_one (fun _ => gTab) pool8 ModuleCategory.All none FUEL hr,
    hne⟩

theorem sortDescBy_ne_nil {α β : Type} [LinearOrder β] {f : α → β} {l : List α}
    (h : l ≠ []) : sortDescBy f l ≠ [] := by
  intro hemp
  have hl := sortDescBy_length f l
  rw [hemp] at hl
  simp only [List.length_nil] at hl
  exact h (List.length_eq_zero.mp hl.symm)

theorem upsertCombo_length_ge :
    ∀ (l : List (List Nat × ModuleSolution)) (k : List Nat) (v : ModuleSolution),
      l.length ≤ (upsertCombo l k v).length
  | [], _, _ => by simp [upsertCombo]
  | (k', v') :: rest, k, v => by
    simp only [upsertCombo]
    split
    · simp
    · simp only [List.length_cons]
      exact Nat.succ_le_succ (upsertCombo_length_ge rest k v)

theorem dedupByCombo_ne_nil {l : List ModuleSolution} (h : l ≠ []) :
    dedupByCombo l ≠ [] := by
  cases l with
  | nil => exact absurd rfl h
  | cons x xs =>
    have hmono : ∀ (ys : List ModuleSolution) (acc : List (List Nat × ModuleSolution)),
        acc.length ≤
          (ys.foldl (fun acc s => upsertCombo acc (combinationId s) s) acc).length := by
      intro ys
      induction ys with
      | nil => intro acc; exact le_refl _
      | cons y ys ih =>
        intro acc
        exact le_trans (upsertCombo_length_ge acc (combinationId y) y) (ih _)
    intro hemp
    unfold dedupByCombo at hemp
    have h1 : 1 ≤ ((x :: xs).foldl
        (fun acc s => upsertCombo acc (combinationId s) s) []).length := by
      rw [List.foldl_cons]
      exact le_trans (by rw [show (upsertCombo [] (combinationId x) x).length = 1
        from rfl]) (hmono xs _)
    rw [List.map_eq_nil_iff] at hemp
    rw [hemp] at h1
    simp at h1

theorem dedupByLevelKey_ne_nil {l : List ModuleSolution} (h : l ≠ []) :
    dedupByLevelKey l ≠ [] := by
  cases l with
  | nil => exact absurd rfl h
  | cons x xs =>
    have hmono : ∀ (ys : List ModuleSolution)
        (acc : List (List (Nat × Nat) × ModuleSolution)),
        acc.length ≤ (ys.foldl (fun acc s =>
          let k := _get_attribute_level_key s.attr_breakdown
          if acc.any (fun e => e.1 = k) then acc else acc ++ [(k, s)]) acc).length := by
      intro ys
      induction ys with
      | nil => intro acc; exact le_refl _
      | cons y ys ih =>
        intro acc
        refine le_trans ?_ (ih _)
        dsimp only
        split
        · exact le_refl _
        · simp
    intro hemp
    unfold dedupByLevelKey at hemp
    have h1 : 1 ≤ ((x :: xs).foldl (fun acc s =>
        let k := _get_attribute_level_key s.attr_breakdown
        if acc.any (fun e => e.1 = k) then acc else acc ++ [(k, s)]) []).length := by
      rw [List.foldl_cons]
      refine le_trans ?_ (hmono xs _)
      dsimp only
      rw [if_neg (by simp)]
      simp
    rw [List.map_eq_nil_iff] at hemp
    rw [hemp] at h1
    simp at h1

theorem pool8_zero_attr :
    ∀ m ∈ pool8, ∃ zn ∈ [201, 202, 203, 204, 205], (∃ p ∈ m.parts, p.name = zn) ∧
      ∀ m' ∈ pool8, ∀ p ∈ m'.parts, p.name = zn → p.value = 0 := by
  decide

theorem zero_entry_of_pool8_subset {ms : List ModuleInfo} (hlen : ms.length = 4)
    (hsub : ∀ m ∈ ms, m ∈ pool8) :
    ∃ e ∈ attrBreakdown ms, e.2 = 0 := by
  have hne : ms ≠ [] := by
    intro h
    rw [h] at hlen
    simp at hlen
  obtain ⟨m, hm⟩ := List.exists_mem_of_ne_nil ms hne
  obtain ⟨zn, _, ⟨p, hp, hpname⟩, hzero⟩ := pool8_zero_attr m (hsub m hm)
  have hoccur : zn ∈ (allParts ms).map (·.name) := by
    apply List.mem_map.mpr
    refine ⟨p, ?_, hpname⟩
    unfold allParts
    apply List.mem_flatten.mpr
    exact ⟨m.parts, List.mem_map_of_mem _ hm, hp⟩
  have hsum : partsSum zn ms = 0 := by
    rw [partsSum_eq]
    unfold partsVal allParts
    apply List.sum_eq_zero
    intro x hx
    rcases List.mem_map.mp hx with ⟨q, hq, rfl⟩
    rcases List.mem_filter.mp hq with ⟨hqmem, hqname⟩
    rcases List.mem_flatten.mp hqmem with ⟨lp, hlp, hql⟩
    rcases List.mem_map.mp hlp with ⟨m', hm', rfl⟩
    exact hzero m' (hsub m' hm') q hql (by simpa using hqname)
  have hlk : bdLookup (attrBreakdown ms) zn = some 0 := by
    rw [attrBreakdown_lookup, if_pos hoccur, hsum]
  exact ⟨(zn, 0), bdLookup_some_mem hlk, rfl⟩

theorem optimize_pool8_eq {r : List ModuleSolution}
    (hr : collectCampaigns (fun _ => gTab) pool8 ModuleCategory.All none FUEL 1 =
      .ok r) :
    optimize_modules (fun _ => gTab) 1 catMapDemo pcfgDemo pool8 ModuleCategory.All 20
        none FUEL =
      .ok ((sortDescBy (·.score) (dedupByLevelKey (sortDescBy (·.optimization_score)
        ((sortDescBy (·.optimization_score) (dedupByCombo r) ++
          sortDescBy (·.optimization_score) (dedupByCombo r)).map (fun s =>
            if s.attr_breakdown.isEmpty then
              { s with
                score := (calculate_combat_power pcfgDemo s.modules).1,
                attr_breakdown := (calculate_combat_power pcfgDemo s.modules).2 }
            else s))))).take 20) := by
  unfold optimize_modules
  dsimp only
  rw [show strict_filtered_pool catMapDemo pool8 ModuleCategory.All none = pool8 from rfl]
  rw [show _preliminary_check pool8 none = true from rfl]
  rw [if_neg (by decide)]
  rw [show prefilter_modules pool8 = pool8 from by decide]
  rw [if_neg (by decide)]
  rw [show qualitySplit pool8 = (pool8, []) from by decide]
  dsimp only
  rw [hr, except_bind_ok]
  rw [show refinePhase ([] : List ModuleInfo)
    (sortDescBy (·.optimization_score) (dedupByCombo r)) pool8 ModuleCategory.All
    none FUEL = .ok (sortDescBy (·.optimization_score) (dedupByCombo r)) from rfl]
  rw [except_bind_ok]

/-- Counterexample to C8's "no zero-valued breakdown entry" part: on the
5-module pool `pool8` — every module carrying one zero-valued part, as the
parser happily produces (`init_link_nums` may hold zeroes) — the run with
the crafted stream `gTab` succeeds, returns a nonempty solution list, and
every returned solution's breakdown has an entry of value 0. -/
theorem c8_zero_entry_counterexample :
    ∃ out, optimize_modules (fun _ => gTab) 1 catMapDemo pcfgDemo pool8
        ModuleCategory.All 20 none FUEL = .ok out ∧ out ≠ [] ∧
      ∀ s ∈ out, ∃ e ∈ s.attr_breakdown, e.2 = 0 := by
  obtain ⟨r, hr, hne⟩ := collect_pool8_ok
  have hok := optimize_pool8_eq hr
  refine ⟨_, hok, ?_, ?_⟩
  · have h1 : dedupByCombo r ≠ [] := dedupByCombo_ne_nil hne
    have h2 : sortDescBy (·.optimization_score) (dedupByCombo r) ≠ [] :=
      sortDescBy_ne_nil h1
    have h3 : 0 < (sortDescBy (·.optimization_score) (dedupByCombo r)).length :=
      List.length_pos.mpr h2
    have h4 : ((sortDescBy (·.optimization_score) (dedupByCombo r) ++
        sortDescBy (·.optimization_score) (dedupByCombo r)).map (fun s =>
          if s.attr_breakdown.isEmpty then
            { s with
              score := (calculate_combat_power pcfgDemo s.modules).1,
              attr_breakdown := (calculate_combat_power pcfgDemo s.modules).2 }
          else s)) ≠ [] := by
      intro hemp
      rw [List.map_eq_nil_iff, List.append_eq_nil] at hemp
      exact h2 hemp.1
    have h5 := dedupByLevelKey_ne_nil
      (@sortDescBy_ne_nil ModuleSolution Int _ (fun s => s.optimization_score) _ h4)
    have h6 := @sortDescBy_ne_nil ModuleSolution Nat _ (fun s => s.score) _ h5
    have h7 : 0 < (sortDescBy (·.score) (dedupByLevelKey
        (sortDescBy (·.optimization_score)
        ((sortDescBy (·.optimization_score) (dedupByCombo r) ++
          sortDescBy (·.optimization_score) (dedupByCombo r)).map (fun s =>
            if s.attr_breakdown.isEmpty then
              { s with
                score := (calculate_combat_power pcfgDemo s.modules).1,
                attr_breakdown := (calculate_combat_power pcfgDemo s.modules).2 }
            else s))))).length := List.length_pos.mpr h6
    intro hemp
    have := congrArg List.length hemp
    rw [List.length_take] at this
    simp only [List.length_nil] at this
    omega
  · intro s hs
    obtain ⟨hlen4, hnd4, hmem8, hbd⟩ :=
      optimize_modules_output_wf pool8_uuid_nodup hok s hs
    have hz := zero_entry_of_pool8_subset hlen4 hmem8
    rw [hbd]
    exact hz

/-- C8 (corrected): every solution returned by `optimize_modules` carries
exactly the combat-power breakdown of its own modules, and each breakdown
entry's value is the total value of that attribute's parts over the 4
modules.  In particular a zero-valued entry occurs exactly when a module
carries only zero-valued parts of that attribute — the spec's claim that no
entry is ever 0 is refuted by the counterexample. -/
theorem c8_breakdown_values_are_part_sums {g : Nat → Sampler}
    {num_campaigns : Nat} {catMap : Nat → ModuleCategory} {pcfg : PowerConfig}
    {modules : List ModuleInfo} {category : ModuleCategory} {top_n : Nat}
    {pa : Option (List Nat)} {fuel : Nat} {out : List ModuleSolution}
    (hnd : (modules.map (·.uuid)).Nodup)
    (hok : optimize_modules g num_campaigns catMap pcfg modules category
      top_n pa fuel = .ok out) :
    ∀ s ∈ out, s.attr_breakdown = (calculate_combat_power pcfg s.modules).2 ∧
      ∀ e ∈ s.attr_breakdown, e.2 = partsSum e.1 s.modules := by
  intro s hs
  have h := optimize_modules_output_wf hnd hok s hs
  refine ⟨h.2.2.2, ?_⟩
  intro e he
  rw [h.2.2.2] at he
  have hb : (calculate_combat_power pcfg s.modules).2 = attrBreakdown s.modules := rfl
  rw [hb] at he
  have hlk := mem_lookup_of_nodup (attrBreakdown_keys_nodup s.modules) he
  rw [attrBreakdown_lookup] at hlk
  split at hlk
  · injection hlk with h'
    exact h'.symm
  · exact absurd hlk (by simp)

theorem c8_breakdown_witness :
    (pool4.map (·.uuid)).Nodup ∧
    ∀ s ∈ ([] : List ModuleSolution),
      s.attr_breakdown = (calculate_combat_power pcfgDemo s.modules).2 ∧
      ∀ e ∈ s.attr_breakdown, e.2 = partsSum e.1 s.modules :=
  ⟨by decide, c8_breakdown_values_are_part_sums (by decide)
    (optimize_pool4_empty (fun _ => gTab) 1 20 catMapDemo pcfgDemo 0)⟩
